import Mathlib

/-!
Verification development for the codex-reflection reflection-loop engine.

The TypeScript sources are shallowly embedded:
* JS objects with optional fields become structures with `Option` fields
  (`none` models both `undefined` and `null`, except where the code
  distinguishes them, which is noted at the definition).
* JS truthiness tests on strings / numbers are modelled by the explicit
  `strTruthy` / `intTruthy` / `ratTruthy` helpers.
* In-place mutation becomes explicit state passing: a function that mutates a
  verse returns the updated verse.  A function that can throw returns `Option`.
* JS numbers are modelled as `Int` (counts, grades) and `Rat` (averages).

Each embedded definition cites the source function it was translated from.
-/

namespace CodexReflection

/-- JS truthiness of a possibly-absent string: `undefined`, `null` and the
empty string are falsy. -/
def strTruthy : Option String → Bool
  | none => false
  | some s => !s.isEmpty

/-- JS truthiness of a possibly-absent integer: `undefined`, `null` and `0`
are falsy. -/
def intTruthy : Option Int → Bool
  | none => false
  | some n => n != 0

/-- JS truthiness of a possibly-absent rational: `undefined`, `null` and `0`
are falsy. -/
def ratTruthy : Option Rat → Bool
  | none => false
  | some q => q != 0

/-- One scored evaluation (`Grade` in the data model): a 0-100 grade with a
rationale comment. -/
structure Grade where
  grade : Int
  comment : String
deriving Repr, DecidableEq

/-- One round of evaluation (`ReflectionLoop` in
reflectionLogsWebviewProvider.ts).  All fields are optional in the JS
records; `grades = none` models a loop object without a `grades` property,
which the code distinguishes from an empty array. -/
structure ReflectionLoop where
  grades : Option (List Grade) := none
  graded_verse : Option String := none
  graded_verse_comment : Option String := none
  average_grade : Option Rat := none
deriving Repr, DecidableEq

instance : Inhabited ReflectionLoop := ⟨{}⟩

/-- A segment ("verse").  The configurable key-paths (reference, source,
translation, translation comment) are modelled as dedicated optional fields:
the engine only ever reads them through `lookUpKey(verse, config.*_key)` and
writes them through `setKey`, so the key-path indirection collapses to plain
field access.  Boolean flags are only ever tested for truthiness or `=== true`
in the code, so they are modelled as `Bool` with `false` for absent. -/
structure Verse where
  reference : Option String := none
  source : Option String := none
  translation : Option String := none
  translation_comment : Option String := none
  reflection_loops : Option (List ReflectionLoop) := none
  reflection_is_finalized : Bool := false
  reflection_finalized_grade : Option Rat := none
  reflection_finalized_comment : Option String := none
  comment_mod_loop_count : Option Int := none
  ai_halted : Bool := false
  grade_only : Bool := false
  human_reviewed : Bool := false
  adapted : Bool := false
deriving Repr, DecidableEq

/-- The per-run configuration record, restricted to the tunables the embedded
functions read.  `translation_comment_key` is `true` when the optional comment
key-path is configured.  `adaptation_prompt` keeps its string value because the
code tests its truthiness. -/
structure Config where
  grades_per_reflection_loop : Int := 6
  iterations_pass_comment : Option Int := none
  reflection_loops_per_verse : Option Int := none
  grade_mode_enabled : Option Bool := none
  translation_comment_key : Bool := true
  adaptation_prompt : Option String := none
  debug_force_vref : Option String := none
  start_line : Option Int := none
  end_line : Option Int := none
  reset_reflection_loops_on_update : Bool := true
deriving Repr, DecidableEq

/-- Sum of the `grade` fields of a list of grades (the accumulation loop in
`computeGradeForReflectionLoop`). -/
def sumGrades : List Grade → Int
  | [] => 0
  | g :: rest => g.grade + sumGrades rest

/-- reflectionLogsWebviewProvider.ts `computeGradeForReflectionLoop`
(lines 2186-2214).  Returns the average grade of a loop and the loop after the
call (the JS function memoizes `average_grade` in place once the grade count
reaches `grades_per_reflection_loop`). -/
def computeGradeForReflectionLoop (config : Config) (loop : ReflectionLoop) :
    Option Rat × ReflectionLoop :=
  match loop.average_grade with
  | some a => (some a, loop)
  | none =>
    let gs := loop.grades.getD []
    let gradeCount : Int := gs.length
    let gradeSum : Int := sumGrades gs
    if 0 < gradeCount then
      let averagedGrade : Rat := (gradeSum : Rat) / (gradeCount : Rat)
      if gradeCount ≥ config.grades_per_reflection_loop then
        (some averagedGrade, { loop with average_grade := some averagedGrade })
      else
        (some averagedGrade, loop)
    else
      (none, loop)

/-- reflectionLogsWebviewProvider.ts `verseIsFinalized` (lines 2173-2184):
returns `false` when the flag is falsy, otherwise the flag. -/
def verseIsFinalized (verse : Verse) : Bool :=
  verse.reflection_is_finalized

/-- The backwards walk of `computeVerseGrade` (lines 2239-2245), expressed on
the reversed loop list: visit loops newest-first, stop at the first loop whose
`computeGradeForReflectionLoop` is non-null, and keep every visited loop's
(possibly memoized) update. -/
def computeVerseGradeLoops (config : Config) :
    List ReflectionLoop → Option Rat × List ReflectionLoop
  | [] => (none, [])
  | l :: rest =>
    let r := computeGradeForReflectionLoop config l
    match r.1 with
    | some a => (some a, r.2 :: rest)
    | none =>
      let r2 := computeVerseGradeLoops config rest
      (r2.1, r.2 :: r2.2)

/-- reflectionLogsWebviewProvider.ts `computeVerseGrade` (lines 2216-2248).
Returns the verse's current grade and the verse after the call (the walk can
memoize loop averages in place). -/
def computeVerseGrade (verse : Verse) (config : Config) : Option Rat × Verse :=
  match verse.reference with
  | none => (none, verse)
  | some _ =>
    match verse.reflection_loops with
    | none => (none, verse)
    | some ls =>
      if ls.isEmpty then (none, verse)
      else if verseIsFinalized verse then (verse.reflection_finalized_grade, verse)
      else
        let r := computeVerseGradeLoops config ls.reverse
        (r.1, { verse with reflection_loops := some r.2.reverse })

/-- reflectionLogsWebviewProvider.ts `ITERATIONS_PASS_COMMENT_DEFAULT`
(line 2550). -/
def ITERATIONS_PASS_COMMENT_DEFAULT : Int := 5

/-- reflectionLogsWebviewProvider.ts `computeReflectionLoopsNeeded`
(lines 2552-2564). -/
def computeReflectionLoopsNeeded (verse : Verse) (config : Config) : Int :=
  max
    ((verse.comment_mod_loop_count.getD (-ITERATIONS_PASS_COMMENT_DEFAULT)) +
      (config.iterations_pass_comment.getD ITERATIONS_PASS_COMMENT_DEFAULT))
    (config.reflection_loops_per_verse.getD 0)

/-- reflectionLogsWebviewProvider.ts `computeNumberUnansweredGrades`
(lines 2567-2590). -/
def computeNumberUnansweredGrades (verse : Verse) (config : Config) : Int :=
  match verse.reflection_loops with
  | none => 0
  | some ls =>
    match ls.getLast? with
    | none => 0
    | some lastReflectionLoop =>
      if strTruthy lastReflectionLoop.graded_verse &&
          decide ((ls.length : Int) < computeReflectionLoopsNeeded verse config) then
        0
      else
        ((lastReflectionLoop.grades.getD []).length : Int)

/-- reflectionLogsWebviewProvider.ts `verseNeedsFinalization`
(lines 2592-2608).  Returns `none` for the JS exception raised when the last
loop has no `grades` property (the code reads `.grades.length` without a
guard). -/
def verseNeedsFinalization (verse : Verse) (config : Config) : Option Bool :=
  let reflectionLoops := verse.reflection_loops.getD []
  if (reflectionLoops.length : Int) < max 1 (computeReflectionLoopsNeeded verse config) then
    some false
  else
    match reflectionLoops.getLast? with
    | none => none
    | some last =>
      match last.grades with
      | none => none
      | some gs => some (!decide ((gs.length : Int) < config.grades_per_reflection_loop))

/-- JS `Array.prototype.slice(start)` for a single, possibly negative, start
index. -/
def jsSliceStart (len : Nat) (i : Int) : Nat :=
  (max 0 (min (len : Int) (if i < 0 then (len : Int) + i else i))).toNat

/-- Drop the prefix removed by `slice(start)`. -/
def jsSlice (ls : List ReflectionLoop) (i : Int) : List ReflectionLoop :=
  ls.drop (jsSliceStart ls.length i)

/-- The best-loop scan of `finalizeVerse` (lines 2633-2642), returning the
relative index and grade of the chosen loop: a loop with a memoized average
replaces the current best when there is no best yet or its average is at least
the current best grade. -/
def selectBest : List ReflectionLoop → Nat → Option (Nat × Rat) → Option (Nat × Rat)
  | [], _, acc => acc
  | l :: rest, i, acc =>
    let acc' :=
      match l.average_grade with
      | none => acc
      | some a =>
        match acc with
        | none => some (i, a)
        | some (k, b) => if b ≤ a then some (i, a) else some (k, b)
    selectBest rest (i + 1) acc'

/-- reflectionLogsWebviewProvider.ts `finalizeVerse` (lines 2610-2664).
Returns the verse after the call, or `none` when `verseNeedsFinalization`
throws.  The aliasing of `bestLoop` with the backfilled last loop in the JS
code is reproduced by re-reading the winning loop from the updated list. -/
def finalizeVerse (verse : Verse) (config : Config) : Option Verse :=
  match verse.reflection_loops with
  | none => some verse
  | some _ =>
    if verseIsFinalized verse then some verse
    else
      match verseNeedsFinalization verse config with
      | none => none
      | some false => some verse
      | some true =>
        let v1 := (computeVerseGrade verse config).2
        let ls := v1.reflection_loops.getD []
        let firstIndexConsidered := v1.comment_mod_loop_count.getD 0
        match selectBest (jsSlice ls firstIndexConsidered) 0 none with
        | none => some v1
        | some (k, bestGrade) =>
          match ls.getLast? with
          | none => some v1
          | some lastLoop =>
            let ls2 :=
              if strTruthy lastLoop.graded_verse then ls
              else
                ls.set (ls.length - 1)
                  { lastLoop with
                    graded_verse := v1.translation,
                    graded_verse_comment :=
                      if config.translation_comment_key then v1.translation_comment
                      else lastLoop.graded_verse_comment }
            let bestLoop := ls2.getD (jsSliceStart ls.length firstIndexConsidered + k) default
            some
              { v1 with
                reflection_loops := some ls2,
                translation := bestLoop.graded_verse,
                translation_comment :=
                  if config.translation_comment_key then bestLoop.graded_verse_comment
                  else v1.translation_comment,
                reflection_is_finalized := true,
                reflection_finalized_grade := some bestGrade }

/-! ## The per-verse consistency sweep and the lowest-grade selection

`runConfigLowestGradePriority` (reflectionLogsWebviewProvider.ts, lines
2997-3335) visits every in-range verse each iteration and performs the first
applicable action.  `verseSweepAction` embeds the per-verse decision logic of
that loop body (lines 3019-3133); the line-range filtering and the actual
service calls stay at the loop level.  `overridden` stands for
`vref in overRiddenReferences`. -/

/-- The action the sweep takes on one verse. -/
inductive SweepAction where
  | skip
  | adapt
  | skipReflection
  | revertFinalization
  | requestGrades (n : Int)
  | fullyGraded
deriving Repr, DecidableEq

/-- The comment-invalidation catch-up test of the sweep (lines 3034-3063):
fires when the newest loop's index is at or before `comment_mod_loop_count`
and either the loop has no `graded_verse` property or the verse is finalized. -/
def commentCatchUp (verse : Verse) : Option SweepAction :=
  let reflectionLoops := verse.reflection_loops.getD []
  match reflectionLoops.getLast? with
  | none => none
  | some lastReflectionLoop =>
    if (reflectionLoops.length : Int) ≤ verse.comment_mod_loop_count.getD (-1) then
      if !lastReflectionLoop.graded_verse.isSome then some SweepAction.skipReflection
      else if verseIsFinalized verse then some SweepAction.revertFinalization
      else none
    else none

/-- One verse's treatment by the consistency sweep (lines 3019-3133):
halted / reference-less / overridden verses are skipped; then the one-time
adaptation pass (`runAdaptationPass` runs iff `adaptation_prompt` is truthy
and the verse is not yet `adapted`); then the comment catch-up; then, when the
newest loop has fewer unanswered grades than `grades_per_reflection_loop`,
exactly the shortfall count of grades is requested (one when grade mode is
disabled). -/
def verseSweepAction (verse : Verse) (config : Config) (overridden : Bool) : SweepAction :=
  if verse.ai_halted then SweepAction.skip
  else
    match verse.reference with
    | none => SweepAction.skip
    | some _ =>
      if overridden then SweepAction.skip
      else if strTruthy config.adaptation_prompt && !verse.adapted then SweepAction.adapt
      else
        match commentCatchUp verse with
        | some a => a
        | none =>
          let unansweredGrades := computeNumberUnansweredGrades verse config
          if unansweredGrades < config.grades_per_reflection_loop then
            SweepAction.requestGrades
              (if config.grade_mode_enabled.getD true then
                config.grades_per_reflection_loop - unansweredGrades
              else 1)
          else SweepAction.fullyGraded

/-- The mutation performed once the requested grades return (lines 3092-3117):
ensure `reflection_loops` exists and is non-empty, open a fresh loop when the
newest one already has a `graded_verse` property, append the new grades to the
newest loop, and clear `reflection_is_finalized` and `human_reviewed`. -/
def applyNewGrades (verse : Verse) (newGrades : List Grade) : Verse :=
  let ls0 := verse.reflection_loops.getD []
  let ls1 := if ls0.isEmpty then [({} : ReflectionLoop)] else ls0
  let ls2 :=
    if (ls1.getLast?.getD default).graded_verse.isSome then ls1 ++ [({} : ReflectionLoop)]
    else ls1
  let lastReflection := ls2.getLast?.getD default
  let ls3 :=
    ls2.set (ls2.length - 1)
      { lastReflection with grades := some (lastReflection.grades.getD [] ++ newGrades) }
  { verse with
    reflection_loops := some ls3,
    reflection_is_finalized := false,
    human_reviewed := false }

/-- The normal (non-debug) lowest-grade selection loop (lines 3162-3192).
`overridden` tells whether a reference is in `overRiddenReferences`.  The fold
threads the verses because `computeVerseGrade` memoizes loop averages in
place; the selected verse is returned in its post-call state, as the JS code
holds a reference to the mutated object. -/
def selectLowestNonDebug (config : Config) (overridden : String → Bool) :
    List Verse → Nat → Option (Rat × Verse) → Option (Rat × Verse)
  | [], _, best => best
  | verse :: rest, verseLineNumber, best =>
    if (match config.start_line with
        | some s => decide ((verseLineNumber : Int) < s - 1)
        | none => false) then
      selectLowestNonDebug config overridden rest (verseLineNumber + 1) best
    else if (match config.end_line with
        | some e => decide ((verseLineNumber : Int) > e - 1)
        | none => false) then
      best
    else if verse.ai_halted then
      selectLowestNonDebug config overridden rest (verseLineNumber + 1) best
    else if verse.grade_only then
      selectLowestNonDebug config overridden rest (verseLineNumber + 1) best
    else
      match verse.reference with
      | none => selectLowestNonDebug config overridden rest (verseLineNumber + 1) best
      | some vref =>
        if overridden vref || verseIsFinalized verse then
          selectLowestNonDebug config overridden rest (verseLineNumber + 1) best
        else
          match computeVerseGrade verse config with
          | (some verseGrade, verse') =>
            let best' :=
              match best with
              | none => some (verseGrade, verse')
              | some (lowest, w) =>
                if lowest > verseGrade then some (verseGrade, verse') else some (lowest, w)
            selectLowestNonDebug config overridden rest (verseLineNumber + 1) best'
          | (none, _) => selectLowestNonDebug config overridden rest (verseLineNumber + 1) best

/-- The debug-override selection loop (lines 3193-3200): the first verse whose
reference equals `debug_force_vref` is picked, with no other filtering. -/
def selectDebugForced (verses : List Verse) (d : String) : Option Verse :=
  verses.find? (fun verse => verse.reference == some d)

/-- The verse selected for reflection or finalization (lines 3161-3201):
the debug branch runs iff `debug_force_vref` is present in the config. -/
def selectLowestGradedVerse (verses : List Verse) (config : Config)
    (overridden : String → Bool) : Option Verse :=
  match config.debug_force_vref with
  | some d => selectDebugForced verses d
  | none => (selectLowestNonDebug config overridden verses 0 none).map (·.2)

/-! ## Ingestion (worker source, src/unnamed/part_001)

`updateReflectionContent` / `resetVerseTo` / `getOldestTranslation` /
`updateReflectionFiles`, embedded per verse.  The fixed key paths
(`SOURCE_KEY`, `TRANSLATION_KEY`) are the dedicated `source` / `translation`
fields. -/

/-- part_001 `getOldestTranslation` (lines 452-454):
`loops?.[0]?.graded_verse ?? lookUpKey(verse, TRANSLATION_KEY, '')`. -/
def getOldestTranslation (verse : Verse) : String :=
  match verse.reflection_loops with
  | some (l0 :: _) =>
    match l0.graded_verse with
    | some s => s
    | none => verse.translation.getD ""
  | _ => verse.translation.getD ""

/-- part_001 `resetVerseTo` (lines 664-671).  The `if (field) field = ...`
statements only overwrite truthy values, so a grade of `0` or a count of `0`
is left in place. -/
def resetVerseTo (verse : Verse) (text : String) : Verse :=
  { verse with
    reflection_loops := some [],
    reflection_is_finalized := false,
    reflection_finalized_grade :=
      if ratTruthy verse.reflection_finalized_grade then none
      else verse.reflection_finalized_grade,
    reflection_finalized_comment :=
      if strTruthy verse.reflection_finalized_comment then none
      else verse.reflection_finalized_comment,
    comment_mod_loop_count :=
      if intTruthy verse.comment_mod_loop_count then some 0
      else verse.comment_mod_loop_count,
    translation := some text }

/-- part_001 `updateReflectionContent` (lines 456-505), `is_source = true`
branch, for the verse already resolved from the reference: empty incoming
text is ignored; otherwise the source key is replaced iff it changed, and the
returned flag reports whether anything changed. -/
def updateReflectionContentSource (verse : Verse) (new_text : String) : Verse × Bool :=
  if new_text = "" then (verse, false)
  else
    let existingSource := verse.source.getD ""
    if existingSource ≠ new_text then ({ verse with source := some new_text }, true)
    else (verse, false)

/-- The net effect of one ingestion pass on a single verse whose source file
carries `new_text`: `updateReflectionContentFromFile` (part_001 lines 643-662)
records the verse as touched iff `updateReflectionContent` reported a change,
and `updateReflectionFiles` (lines 673-712) then resets every touched verse to
its oldest translation iff `reset_reflection_loops_on_update` is set. -/
def ingestSourceText (verse : Verse) (new_text : String) (config : Config) : Verse :=
  let r := updateReflectionContentSource verse new_text
  if config.reset_reflection_loops_on_update && r.2 then
    resetVerseTo r.1 (getOldestTranslation r.1)
  else r.1

/-! ## Helper lemmas -/

/-- `computeVerseGrade` only touches `reflection_loops`: every other field of
the returned verse is that of the input. -/
theorem computeVerseGrade_snd_comment_mod (v : Verse) (c : Config) :
    ((computeVerseGrade v c).2).comment_mod_loop_count = v.comment_mod_loop_count := by
  unfold computeVerseGrade
  split
  · rfl
  · split
    · rfl
    · split
      · rfl
      · split
        · rfl
        · rfl

/-- `computeVerseGrade` preserves the `ai_halted` flag. -/
theorem computeVerseGrade_snd_ai_halted (v : Verse) (c : Config) :
    ((computeVerseGrade v c).2).ai_halted = v.ai_halted := by
  unfold computeVerseGrade
  split
  · rfl
  · split
    · rfl
    · split
      · rfl
      · split
        · rfl
        · rfl

/-- C2: for every segment on which finalization has run
(`reflection_is_finalized` is `true`, which `finalizeVerse` only sets on a
verse with a present reference and a non-empty loop list), `computeVerseGrade`
returns `reflection_finalized_grade`.  The loop list `ls` is universally
quantified, so the result is independent of any (hypothetical) changes to the
unfinalized rounds stored there. -/
theorem C2_computeVerseGrade_after_finalization (v : Verse) (c : Config) (r : String)
    (ls : List ReflectionLoop)
    (href : v.reference = some r)
    (hls : v.reflection_loops = some ls)
    (hne : ls ≠ [])
    (hfin : v.reflection_is_finalized = true) :
    (computeVerseGrade v c).1 = v.reflection_finalized_grade := by
  unfold computeVerseGrade verseIsFinalized
  rw [href, hls, hfin]
  simp [List.isEmpty_iff, hne]

/-- Witness for C2 at a concrete finalized verse with two hypothetical
unfinalized rounds. -/
theorem C2_witness :
    (computeVerseGrade
      { reference := some "GEN 1:1",
        reflection_loops := some [{ grades := some [⟨10, "x"⟩] }, {}],
        reflection_is_finalized := true,
        reflection_finalized_grade := some 88 }
      {}).1 = some (88 : Rat) := by
  have h := C2_computeVerseGrade_after_finalization
    { reference := some "GEN 1:1",
      reflection_loops := some [{ grades := some [⟨10, "x"⟩] }, {}],
      reflection_is_finalized := true,
      reflection_finalized_grade := some 88 }
    {} "GEN 1:1" [{ grades := some [⟨10, "x"⟩] }, {}] rfl rfl (by decide) rfl
  simpa using h

/-- C7: `finalizeVerse` applied to an already-finalized segment returns before
performing any mutation, so the segment and all of its fields are unchanged. -/
theorem C7_finalizeVerse_idempotent_on_finalized (v : Verse) (c : Config)
    (hfin : v.reflection_is_finalized = true) :
    finalizeVerse v c = some v := by
  unfold finalizeVerse verseIsFinalized
  cases h : v.reflection_loops with
  | none => rfl
  | some ls => rw [hfin]; rfl

/-- Witness for C7 at a concrete finalized verse. -/
theorem C7_witness :
    finalizeVerse
      { reference := some "GEN 1:1",
        translation := some "text",
        reflection_loops := some [{ grades := some [⟨80, "g"⟩], average_grade := some 80 }],
        reflection_is_finalized := true,
        reflection_finalized_grade := some 80 }
      {} =
    some
      { reference := some "GEN 1:1",
        translation := some "text",
        reflection_loops := some [{ grades := some [⟨80, "g"⟩], average_grade := some 80 }],
        reflection_is_finalized := true,
        reflection_finalized_grade := some 80 } :=
  C7_finalizeVerse_idempotent_on_finalized _ {} rfl

/-- C6 counterexample: with no comment change recorded
(`comment_mod_loop_count` absent), `iterations_pass_comment = 12` and
`reflection_loops_per_verse = 3`, the code returns `max (-5 + 12) 3 = 7`,
not the configured per-segment round count `3`. -/
theorem C6_counterexample :
    computeReflectionLoopsNeeded {}
      { iterations_pass_comment := some 12, reflection_loops_per_verse := some 3 } = 7 ∧
    (7 : Int) ≠ 3 := by
  constructor
  · rfl
  · decide

/-- C6 (amended): with a recorded comment change, the function returns the
maximum of the two candidate counts; with none recorded, the comment
candidate is computed from the baseline `-5`, so the configured per-segment
round count is returned exactly when `iterations_pass_comment - 5` does not
exceed it (in particular at the default pass-count). -/
theorem C6_loops_needed_max (v : Verse) (c : Config) :
    (∀ m ip rl, v.comment_mod_loop_count = some m →
      c.iterations_pass_comment = some ip →
      c.reflection_loops_per_verse = some rl →
      computeReflectionLoopsNeeded v c = max (m + ip) rl) ∧
    (v.comment_mod_loop_count = none →
      c.iterations_pass_comment.getD 5 - 5 ≤ c.reflection_loops_per_verse.getD 0 →
      computeReflectionLoopsNeeded v c = c.reflection_loops_per_verse.getD 0) := by
  constructor
  · intro m ip rl hm hip hrl
    simp [computeReflectionLoopsNeeded, hm, hip, hrl]
  · intro hm hle
    simp only [computeReflectionLoopsNeeded, ITERATIONS_PASS_COMMENT_DEFAULT, hm,
      Option.getD_none]
    omega

/-- Witness for C6 at concrete inputs exercising both conjuncts. -/
theorem C6_witness :
    computeReflectionLoopsNeeded { comment_mod_loop_count := some 4 }
      { iterations_pass_comment := some 5, reflection_loops_per_verse := some 10 } = 10 ∧
    computeReflectionLoopsNeeded {}
      { iterations_pass_comment := some 5, reflection_loops_per_verse := some 3 } = 3 := by
  constructor
  · have h := (C6_loops_needed_max { comment_mod_loop_count := some 4 }
      { iterations_pass_comment := some 5, reflection_loops_per_verse := some 10 }).1
      4 5 10 rfl rfl rfl
    simpa using h
  · have h := (C6_loops_needed_max {}
      { iterations_pass_comment := some 5, reflection_loops_per_verse := some 3 }).2
      rfl (by decide)
    simpa using h

/-- C9: `comment_mod_loop_count` is never decreased by any embedded operation
except `resetVerseTo`, which empties the segment's history
(`reflection_loops` becomes `[]`) and sets the counter to `0` (leaving it in
place when it was already falsy): `finalizeVerse`, the grade-append step,
`computeVerseGrade` and the source-ingestion update all preserve it. -/
theorem C9_comment_mod_loop_count_monotone (v : Verse) (t : String) (c : Config)
    (gs : List Grade) :
    ((resetVerseTo v t).reflection_loops = some [] ∧
      ((resetVerseTo v t).comment_mod_loop_count = some 0 ∨
        (resetVerseTo v t).comment_mod_loop_count = v.comment_mod_loop_count)) ∧
    (∀ v', finalizeVerse v c = some v' →
      v'.comment_mod_loop_count = v.comment_mod_loop_count) ∧
    (applyNewGrades v gs).comment_mod_loop_count = v.comment_mod_loop_count ∧
    ((computeVerseGrade v c).2).comment_mod_loop_count = v.comment_mod_loop_count ∧
    ((updateReflectionContentSource v t).1).comment_mod_loop_count =
      v.comment_mod_loop_count := by
  refine ⟨⟨rfl, ?_⟩, ?_, rfl, computeVerseGrade_snd_comment_mod v c, ?_⟩
  · by_cases h : intTruthy v.comment_mod_loop_count = true
    · left; simp [resetVerseTo, h]
    · right; simp [resetVerseTo, h]
  · intro v' h
    have hcm := computeVerseGrade_snd_comment_mod v c
    unfold finalizeVerse at h
    split at h
    · obtain rfl := Option.some.inj h
      rfl
    · split at h
      · obtain rfl := Option.some.inj h
        rfl
      · split at h
        · exact absurd h (by simp)
        · obtain rfl := Option.some.inj h
          rfl
        · dsimp only at h
          split at h
          · obtain rfl := Option.some.inj h
            exact hcm
          · split at h
            · obtain rfl := Option.some.inj h
              exact hcm
            · obtain rfl := Option.some.inj h
              exact hcm
  · unfold updateReflectionContentSource
    split
    · rfl
    · dsimp only
      split
      · rfl
      · rfl

/-- Witness for C9 at a concrete verse: the reset zeroes the counter while
emptying the history, and a finalize call on a finalized verse preserves it. -/
theorem C9_witness :
    ((resetVerseTo { comment_mod_loop_count := some 3 } "w").reflection_loops = some [] ∧
      ((resetVerseTo { comment_mod_loop_count := some 3 } "w").comment_mod_loop_count =
          some 0 ∨
        (resetVerseTo { comment_mod_loop_count := some 3 } "w").comment_mod_loop_count =
          ({ comment_mod_loop_count := some 3 } : Verse).comment_mod_loop_count)) ∧
    (applyNewGrades { comment_mod_loop_count := some 3 } []).comment_mod_loop_count =
      ({ comment_mod_loop_count := some 3 } : Verse).comment_mod_loop_count := by
  have h := C9_comment_mod_loop_count_monotone { comment_mod_loop_count := some 3 } "w" {} []
  exact ⟨h.1, h.2.2.1⟩

/-- C5 (amended): when `reset_reflection_loops_on_update` is enabled (the
default), a segment whose canonical source text changes during ingestion ends
with empty `reflection_loops` and its translation reset to the prior oldest
draft. -/
theorem C5_source_change_resets (v : Verse) (nt : String) (c : Config)
    (hflag : c.reset_reflection_loops_on_update = true)
    (hne : nt ≠ "")
    (hch : v.source.getD "" ≠ nt) :
    (ingestSourceText v nt c).reflection_loops = some [] ∧
    (ingestSourceText v nt c).translation = some (getOldestTranslation v) := by
  have hup : updateReflectionContentSource v nt = ({ v with source := some nt }, true) := by
    unfold updateReflectionContentSource
    simp [hne, hch]
  have hold : getOldestTranslation { v with source := some nt } = getOldestTranslation v := by
    unfold getOldestTranslation
    rfl
  unfold ingestSourceText
  rw [hup]
  simp [hflag, resetVerseTo, hold]

/-- Witness for C5 at a concrete verse whose oldest draft sits in loop 0. -/
theorem C5_witness :
    (ingestSourceText
      { source := some "old src", translation := some "current",
        reflection_loops := some [{ graded_verse := some "draft0" }] }
      "new src" {}).reflection_loops = some [] ∧
    (ingestSourceText
      { source := some "old src", translation := some "current",
        reflection_loops := some [{ graded_verse := some "draft0" }] }
      "new src" {}).translation = some "draft0" := by
  have h := C5_source_change_resets
    { source := some "old src", translation := some "current",
      reflection_loops := some [{ graded_verse := some "draft0" }] }
    "new src" {} rfl (by decide) (by decide)
  exact ⟨h.1, by simpa using h.2⟩

/-- C5 counterexample: with `reset_reflection_loops_on_update` disabled, a
source-text change does not clear `reflection_loops`, refuting the claim as
stated for every configuration. -/
theorem C5_counterexample :
    (ingestSourceText
      { source := some "old src", translation := some "current",
        reflection_loops := some [{ graded_verse := some "draft0" }] }
      "new src" { reset_reflection_loops_on_update := false }).reflection_loops =
      some [{ graded_verse := some "draft0" }] ∧
    some [({ graded_verse := some "draft0" } : ReflectionLoop)] ≠
      some ([] : List ReflectionLoop) := by
  constructor
  · rfl
  · decide

/-- C3: when the sweep reaches a verse (not halted, referenced, not
overridden, no adaptation or comment catch-up applicable) whose newest round
has fewer unanswered grades than `grades_per_reflection_loop`, it requests
exactly the shortfall count of grades (exactly one when grade mode is
disabled), and the grade-append step appends them to that round while
clearing the finalization and review flags. -/
theorem C3_sweep_requests_exact_shortfall (v : Verse) (c : Config) (ov : Bool)
    (hh : v.ai_halted = false)
    (href : v.reference.isSome)
    (hov : ov = false)
    (had : strTruthy c.adaptation_prompt = false ∨ v.adapted = true)
    (hcs : commentCatchUp v = none)
    (hun : computeNumberUnansweredGrades v c < c.grades_per_reflection_loop) :
    verseSweepAction v c ov =
      SweepAction.requestGrades
        (if c.grade_mode_enabled.getD true then
          c.grades_per_reflection_loop - computeNumberUnansweredGrades v c
        else 1) ∧
    ∀ (gs : List Grade) (ls : List ReflectionLoop) (last : ReflectionLoop),
      v.reflection_loops = some ls → ls.getLast? = some last → last.graded_verse = none →
      (applyNewGrades v gs).reflection_loops =
        some (ls.set (ls.length - 1)
          { last with grades := some (last.grades.getD [] ++ gs) }) ∧
      (applyNewGrades v gs).reflection_is_finalized = false ∧
      (applyNewGrades v gs).human_reviewed = false := by
  constructor
  · obtain ⟨r, hr⟩ := Option.isSome_iff_exists.mp href
    have hadapt : (strTruthy c.adaptation_prompt && !v.adapted) = false := by
      rcases had with h | h <;> simp [h]
    unfold verseSweepAction
    rw [hh, hr, hov, hadapt, hcs]
    simp [hun]
  · intro gs ls last hls hlast hgv
    have hne : ls ≠ [] := by
      intro h
      rw [h] at hlast
      exact absurd hlast (by simp)
    have hempty : ls.isEmpty = false := by simpa [List.isEmpty_iff] using hne
    have hsome : (ls.getLast?.getD default).graded_verse.isSome = false := by
      rw [hlast]
      simpa using hgv
    refine ⟨?_, rfl, rfl⟩
    simp [applyNewGrades, hls, hempty, hlast, hgv]

/-- Witness for C3 at the claim's own instance: three grades per loop, two
already recorded, grade mode enabled — exactly one grade is requested and
appended to the same round. -/
theorem C3_witness :
    verseSweepAction
      { reference := some "GEN 1:1",
        reflection_loops := some [{ grades := some [⟨40, "a"⟩, ⟨60, "b"⟩] }] }
      { grades_per_reflection_loop := 3 } false = SweepAction.requestGrades 1 ∧
    (applyNewGrades
      { reference := some "GEN 1:1",
        reflection_loops := some [{ grades := some [⟨40, "a"⟩, ⟨60, "b"⟩] }] }
      [⟨70, "c"⟩]).reflection_loops =
      some [{ grades := some [⟨40, "a"⟩, ⟨60, "b"⟩, ⟨70, "c"⟩] }] := by
  have h := C3_sweep_requests_exact_shortfall
    { reference := some "GEN 1:1",
      reflection_loops := some [{ grades := some [⟨40, "a"⟩, ⟨60, "b"⟩] }] }
    { grades_per_reflection_loop := 3 } false rfl rfl rfl (Or.inl rfl) rfl (by decide)
  refine ⟨by simpa using h.1, ?_⟩
  have h2 := (h.2 [⟨70, "c"⟩] [{ grades := some [⟨40, "a"⟩, ⟨60, "b"⟩] }]
    { grades := some [⟨40, "a"⟩, ⟨60, "b"⟩] } rfl rfl rfl).1
  simpa using h2

/-- Invariant of the non-debug selection fold: any verse it returns passed the
`ai_halted` filter (memoization by `computeVerseGrade` does not change the
flag). -/
theorem selectLowestNonDebug_not_halted (c : Config) (ov : String → Bool) :
    ∀ (verses : List Verse) (i : Nat) (best : Option (Rat × Verse)),
      (∀ g w, best = some (g, w) → w.ai_halted = false) →
      ∀ g w, selectLowestNonDebug c ov verses i best = some (g, w) → w.ai_halted = false := by
  intro verses
  induction verses with
  | nil =>
    intro i best hbest g w h
    exact hbest g w h
  | cons verse rest ih =>
    intro i best hbest g w h
    unfold selectLowestNonDebug at h
    split at h
    · exact ih _ _ hbest g w h
    · split at h
      · exact hbest g w h
      · split at h
        · exact ih _ _ hbest g w h
        · rename_i hnh
          split at h
          · exact ih _ _ hbest g w h
          · split at h
            · exact ih _ _ hbest g w h
            · rename_i vref hvref
              split at h
              · exact ih _ _ hbest g w h
              · split at h
                · rename_i vg v' hcall
                  have hv' : v'.ai_halted = false := by
                    have hpres := computeVerseGrade_snd_ai_halted verse c
                    rw [hcall] at hpres
                    simp only [Bool.not_eq_true] at hnh
                    rw [hnh] at hpres
                    exact hpres
                  refine ih _ _ ?_ g w h
                  intro g2 w2 hb2
                  cases best with
                  | none =>
                    have h2 : v' = w2 := congrArg Prod.snd (Option.some.inj hb2)
                    rw [← h2]
                    exact hv'
                  | some p =>
                    obtain ⟨lg, lw⟩ := p
                    by_cases hlt : lg > vg
                    · have hb3 : some (vg, v') = some (g2, w2) := by
                        simpa [hlt] using hb2
                      have h2 : v' = w2 := congrArg Prod.snd (Option.some.inj hb3)
                      rw [← h2]
                      exact hv'
                    · have hb3 : some (lg, lw) = some (g2, w2) := by
                        simpa [hlt] using hb2
                      have h2 : lw = w2 := congrArg Prod.snd (Option.some.inj hb3)
                      rw [← h2]
                      exact hbest lg lw rfl
                · exact ih _ _ hbest g w h

/-- C4 (amended): an `ai_halted` segment is never acted on by the consistency
sweep and never chosen by the normal lowest-grade selection; the exception is
the `debug_force_vref` override, which ignores the flag (see the
counterexample). -/
theorem C4_halted_never_selected (v : Verse) (c : Config) (ov : Bool)
    (verses : List Verse) (c2 : Config) (ovf : String → Bool) (w : Verse)
    (hhalt : v.ai_halted = true) :
    verseSweepAction v c ov = SweepAction.skip ∧
    (c2.debug_force_vref = none →
      selectLowestGradedVerse verses c2 ovf = some w → w.ai_halted = false) := by
  constructor
  · unfold verseSweepAction
    rw [hhalt]
    rfl
  · intro hdbg hsel
    unfold selectLowestGradedVerse at hsel
    rw [hdbg] at hsel
    obtain ⟨⟨g, w'⟩, hmem, hw⟩ := Option.map_eq_some'.mp hsel
    dsimp only at hw
    subst hw
    exact selectLowestNonDebug_not_halted c2 ovf verses 0 none (by intro g w h; cases h) g w' hmem

/-- Witness for C4 applied at a concrete halted verse and a concrete
selection run without the debug override. -/
theorem C4_witness :
    verseSweepAction { reference := some "GEN 1:1", ai_halted := true } {} false =
      SweepAction.skip ∧
    (({} : Config).debug_force_vref = none →
      selectLowestGradedVerse [{ reference := some "GEN 1:1", ai_halted := true }] {}
        (fun _ => false) = some { reference := some "GEN 1:1", ai_halted := true } →
      ({ reference := some "GEN 1:1", ai_halted := true } : Verse).ai_halted = false) :=
  C4_halted_never_selected { reference := some "GEN 1:1", ai_halted := true } {} false
    [{ reference := some "GEN 1:1", ai_halted := true }] {} (fun _ => false)
    { reference := some "GEN 1:1", ai_halted := true } rfl

/-- C4 counterexample: with `debug_force_vref` set to the halted verse's
reference, the selection loop picks the `ai_halted` verse (the debug branch
performs no `ai_halted` check), refuting the claim for every configuration. -/
theorem C4_counterexample :
    selectLowestGradedVerse [{ reference := some "GEN 1:1", ai_halted := true }]
      { debug_force_vref := some "GEN 1:1" } (fun _ => false) =
      some { reference := some "GEN 1:1", ai_halted := true } ∧
    ({ reference := some "GEN 1:1", ai_halted := true } : Verse).ai_halted = true := by
  constructor
  · rfl
  · rfl

/-! ## Generic JSON-like values

`lookUpKey` (reflectionWebviewProvider.ts, lines 174-200) walks arbitrary
nested data, and the checkpoint store (`saveJsonl` / `loadJsonl`, lines
229-263) serializes arbitrary JSON rows, so both are embedded over a JSON
value type.  JS numbers are modelled as integers (whose `JSON.stringify`
rendering is exact); strings are lists of characters. -/

inductive Json where
  | null : Json
  | bool : Bool → Json
  | num : Int → Json
  | str : List Char → Json
  | arr : List Json → Json
  | obj : List (List Char × Json) → Json

/-- Structural induction principle for `Json` with pointwise hypotheses for
array elements and object field values. -/
def Json.recAux {motive : Json → Prop}
    (hnull : motive .null)
    (hbool : ∀ b, motive (.bool b))
    (hnum : ∀ n, motive (.num n))
    (hstr : ∀ s, motive (.str s))
    (harr : ∀ xs, (∀ x ∈ xs, motive x) → motive (.arr xs))
    (hobj : ∀ fs, (∀ kv ∈ fs, motive kv.2) → motive (.obj fs)) :
    ∀ j, motive j
  | .null => hnull
  | .bool b => hbool b
  | .num n => hnum n
  | .str s => hstr s
  | .arr xs =>
    harr xs (fun x hx =>
      Json.recAux hnull hbool hnum hstr harr hobj x)
  | .obj fs =>
    hobj fs (fun kv hkv =>
      Json.recAux hnull hbool hnum hstr harr hobj kv.2)
termination_by j => sizeOf j
decreasing_by
  · have h1 := List.sizeOf_lt_of_mem hx
    simp only [Json.arr.sizeOf_spec]
    omega
  · have h1 := List.sizeOf_lt_of_mem hkv
    have h2 : sizeOf kv.2 < sizeOf kv := by
      obtain ⟨a, b⟩ := kv
      simp only [Prod.mk.sizeOf_spec]
      omega
    simp only [Json.obj.sizeOf_spec]
    omega

/-- Decimal digit character for a digit value below ten. -/
def digitChar : Nat → Char
  | 0 => '0'
  | 1 => '1'
  | 2 => '2'
  | 3 => '3'
  | 4 => '4'
  | 5 => '5'
  | 6 => '6'
  | 7 => '7'
  | 8 => '8'
  | _ => '9'

/-- Is this character a decimal digit. -/
def isDigitChar (c : Char) : Bool := '0' ≤ c && c ≤ '9'

/-- Value of a decimal digit character. -/
def digitVal (c : Char) : Nat := c.toNat - 48

/-- Lowercase hexadecimal digit character, as emitted by
`JSON.stringify` in `\u00XX` escapes. -/
def hexDigitChar : Nat → Char
  | 0 => '0'
  | 1 => '1'
  | 2 => '2'
  | 3 => '3'
  | 4 => '4'
  | 5 => '5'
  | 6 => '6'
  | 7 => '7'
  | 8 => '8'
  | 9 => '9'
  | 10 => 'a'
  | 11 => 'b'
  | 12 => 'c'
  | 13 => 'd'
  | 14 => 'e'
  | _ => 'f'

/-- Decimal rendering of a natural number, most significant digit first. -/
def printNat (n : Nat) : List Char :=
  if n = 0 then ['0'] else (Nat.digits 10 n).reverse.map digitChar

/-- `JSON.stringify` rendering of an integer. -/
def printInt (i : Int) : List Char :=
  if i < 0 then '-' :: printNat i.natAbs else printNat i.toNat

/-- `JSON.stringify` escaping of one string character: quote, backslash and
the named control characters get two-character escapes, other control
characters get `\u00XX`, everything else passes through. -/
def escChar (ch : Char) : List Char :=
  if ch = '"' then ['\\', '"']
  else if ch = '\\' then ['\\', '\\']
  else if ch = '\x08' then ['\\', 'b']
  else if ch = '\t' then ['\\', 't']
  else if ch = '\n' then ['\\', 'n']
  else if ch = '\x0c' then ['\\', 'f']
  else if ch = '\r' then ['\\', 'r']
  else if ch.toNat < 32 then
    ['\\', 'u', '0', '0', hexDigitChar (ch.toNat / 16), hexDigitChar (ch.toNat % 16)]
  else [ch]

/-- Comma-separated join, as produced by `JSON.stringify` for array elements
and object fields (no whitespace). -/
def joinComma : List (List Char) → List Char
  | [] => []
  | [x] => x
  | x :: rest => x ++ ',' :: joinComma rest

mutual

/-- Compact `JSON.stringify` rendering of a value (the host builtin used by
`saveJsonl`, modelled on integer-valued numbers). -/
def printJson : Json → List Char
  | .null => "null".data
  | .bool true => "true".data
  | .bool false => "false".data
  | .num n => printInt n
  | .str s => '"' :: s.flatMap escChar ++ ['"']
  | .arr xs => '[' :: joinComma (printJsonList xs) ++ [']']
  | .obj fs => '{' :: joinComma (printJsonFields fs) ++ ['}']

/-- Renderings of the elements of an array. -/
def printJsonList : List Json → List (List Char)
  | [] => []
  | x :: rest => printJson x :: printJsonList rest

/-- Renderings of the fields of an object (`"key":value`). -/
def printJsonFields : List (List Char × Json) → List (List Char)
  | [] => []
  | (k, v) :: rest =>
    ('"' :: k.flatMap escChar ++ '"' :: ':' :: printJson v) :: printJsonFields rest

end

/-- Decode a two-character JSON string escape. -/
def escDecode (e : Char) : Option Char :=
  if e = '"' then some '"'
  else if e = '\\' then some '\\'
  else if e = '/' then some '/'
  else if e = 'b' then some '\x08'
  else if e = 'f' then some '\x0c'
  else if e = 'n' then some '\n'
  else if e = 'r' then some '\r'
  else if e = 't' then some '\t'
  else none

/-- Is this character a hexadecimal digit. -/
def isHexChar (c : Char) : Bool :=
  ('0' ≤ c && c ≤ '9') || ('a' ≤ c && c ≤ 'f') || ('A' ≤ c && c ≤ 'F')

/-- Value of a hexadecimal digit character. -/
def hexVal (c : Char) : Nat :=
  if '0' ≤ c && c ≤ '9' then c.toNat - 48
  else if 'a' ≤ c && c ≤ 'f' then c.toNat - 87
  else c.toNat - 55

/-- Parse the body of a JSON string after the opening quote, up to and
including the closing quote. -/
def parseStringBody : List Char → Option (List Char × List Char)
  | [] => none
  | c :: rest =>
    if c = '"' then some ([], rest)
    else if c = '\\' then
      match rest with
      | [] => none
      | e :: rest2 =>
        if e = 'u' then
          match rest2 with
          | h1 :: h2 :: h3 :: h4 :: rest3 =>
            if isHexChar h1 && isHexChar h2 && isHexChar h3 && isHexChar h4 then
              (parseStringBody rest3).map (fun p =>
                (Char.ofNat
                  (hexVal h1 * 4096 + hexVal h2 * 256 + hexVal h3 * 16 + hexVal h4) :: p.1,
                  p.2))
            else none
          | _ => none
        else
          match escDecode e with
          | some d => (parseStringBody rest2).map (fun p => (d :: p.1, p.2))
          | none => none
    else (parseStringBody rest).map (fun p => (c :: p.1, p.2))

/-- Consume a maximal run of decimal digits, folding them onto `acc`. -/
def parseDigits : List Char → Nat → Nat × List Char
  | [], acc => (acc, [])
  | c :: rest, acc =>
    if isDigitChar c then parseDigits rest (acc * 10 + digitVal c) else (acc, c :: rest)

mutual

/-- Recursive-descent parser for the compact JSON fragment emitted by
`printJson` (the behaviour of the host `JSON.parse` on `loadJsonl`'s input
lines).  `fuel` bounds the recursion depth and the element count. -/
def parseVal : Nat → List Char → Option (Json × List Char)
  | 0, _ => none
  | Nat.succ fuel, cs =>
    match cs with
    | [] => none
    | c :: rest =>
      if c = 'n' then
        match rest with
        | 'u' :: 'l' :: 'l' :: r => some (.null, r)
        | _ => none
      else if c = 't' then
        match rest with
        | 'r' :: 'u' :: 'e' :: r => some (.bool true, r)
        | _ => none
      else if c = 'f' then
        match rest with
        | 'a' :: 'l' :: 's' :: 'e' :: r => some (.bool false, r)
        | _ => none
      else if c = '"' then
        (parseStringBody rest).map (fun p => (.str p.1, p.2))
      else if c = '[' then
        match rest with
        | [] => none
        | r :: r2 =>
          if r = ']' then some (.arr [], r2)
          else (parseItems fuel (r :: r2)).map (fun p => (.arr p.1, p.2))
      else if c = '{' then
        match rest with
        | [] => none
        | r :: r2 =>
          if r = '}' then some (.obj [], r2)
          else (parseFields fuel (r :: r2)).map (fun p => (.obj p.1, p.2))
      else if c = '-' then
        match rest with
        | [] => none
        | d :: r2 =>
          if isDigitChar d then
            let p := parseDigits r2 (digitVal d)
            some (.num (-(p.1 : Int)), p.2)
          else none
      else if isDigitChar c then
        let p := parseDigits rest (digitVal c)
        some (.num (p.1 : Int), p.2)
      else none

/-- Parse a non-empty comma-separated element list up to the closing `]`. -/
def parseItems : Nat → List Char → Option (List Json × List Char)
  | 0, _ => none
  | Nat.succ fuel, cs =>
    match parseVal fuel cs with
    | none => none
    | some (v, rest) =>
      match rest with
      | [] => none
      | r :: r2 =>
        if r = ',' then (parseItems fuel r2).map (fun p => (v :: p.1, p.2))
        else if r = ']' then some ([v], r2)
        else none

/-- Parse a non-empty comma-separated field list up to the closing brace. -/
def parseFields : Nat → List Char → Option (List (List Char × Json) × List Char)
  | 0, _ => none
  | Nat.succ fuel, cs =>
    match cs with
    | [] => none
    | c :: rest =>
      if c = '"' then
        match parseStringBody rest with
        | none => none
        | some (k, r2) =>
          match r2 with
          | [] => none
          | c2 :: r3 =>
            if c2 = ':' then
              match parseVal fuel r3 with
              | none => none
              | some (v, r4) =>
                match r4 with
                | [] => none
                | c3 :: r5 =>
                  if c3 = ',' then
                    (parseFields fuel r5).map (fun p => ((k, v) :: p.1, p.2))
                  else if c3 = '}' then some ([(k, v)], r5)
                  else none
            else none
      else none

end

mutual

/-- Fuel sufficient for `parseVal` on this value's rendering. -/
def jsonFuel : Json → Nat
  | .null => 1
  | .bool _ => 1
  | .num _ => 1
  | .str _ => 1
  | .arr xs => 1 + jsonFuelItems xs
  | .obj fs => 1 + jsonFuelFields fs

/-- Fuel sufficient for `parseItems` on these elements' renderings. -/
def jsonFuelItems : List Json → Nat
  | [] => 0
  | x :: rest => 1 + jsonFuel x + jsonFuelItems rest

/-- Fuel sufficient for `parseFields` on these fields' renderings. -/
def jsonFuelFields : List (List Char × Json) → Nat
  | [] => 0
  | kv :: rest => 1 + jsonFuel kv.2 + jsonFuelFields rest

end

/-- The input does not start with a decimal digit (so a preceding number
parse cannot overrun into it). -/
def noDigitHead : List Char → Bool
  | [] => true
  | c :: _ => !isDigitChar c

/-- Join lines with newline separators (`lines.join('\n')`). -/
def joinNl : List (List Char) → List Char
  | [] => []
  | [x] => x
  | x :: rest => x ++ '\n' :: joinNl rest

/-- Split on newlines (`content.split('\n')`); always returns at least one
(possibly empty) line. -/
def splitNl : List Char → List (List Char)
  | [] => [[]]
  | c :: rest =>
    if c = '\n' then [] :: splitNl rest
    else
      match splitNl rest with
      | [] => [[c]]
      | l :: ls => (c :: l) :: ls

/-- JS whitespace as removed by `String.prototype.trim`. -/
def isWsChar (c : Char) : Bool :=
  c = ' ' || c = '\t' || c = '\n' || c = '\r' || c = '\x0b' || c = '\x0c'

/-- `loadJsonl` keeps a line iff `line.trim()` is truthy, i.e. the line has a
non-whitespace character. -/
def lineKept (l : List Char) : Bool := !(l.all isWsChar)

/-- The host `JSON.parse` on one checkpoint line: the parse must consume the
whole line. -/
def jsonParse (l : List Char) : Option Json :=
  match parseVal (l.length + 1) l with
  | some (j, []) => some j
  | _ => none

/-- reflectionWebviewProvider.ts `saveJsonl` (lines 249-263): the file content
written (one `JSON.stringify` row per line, newline-joined; the temp-file and
atomic rename are I/O plumbing outside the value model). -/
def saveJsonlContent (rows : List Json) : List Char :=
  joinNl (rows.map printJson)

/-- reflectionWebviewProvider.ts `loadJsonl` (lines 229-242): split the
content on newlines, keep the lines whose trim is truthy, and `JSON.parse`
each one (`none` models the exception on a malformed line). -/
def loadJsonlContent (content : List Char) : Option (List Json) :=
  ((splitNl content).filter lineKept).mapM jsonParse

/-- A key in a key path: a JS string or a JS number. -/
def JsKey := Sum (List Char) Int

/-- Property lookup coerces a numeric key to its decimal string. -/
def keyStr : JsKey → List Char
  | .inl s => s
  | .inr n => printInt n

/-- First binding of `k` in an object's field list (JS own-property lookup;
JS objects cannot carry duplicate keys). -/
def lookupField : List (List Char × Json) → List Char → Option Json
  | [], _ => none
  | (k, v) :: rest, key => if k = key then some v else lookupField rest key

/-- reflectionWebviewProvider.ts `lookUpKey` (lines 174-200): walk the key
path; arrays demand an in-bounds numeric key, objects demand a present
property (numeric keys coerced to strings), anything else (including `null`)
stops the walk; every failure returns `defaultValue`.  A final `null` result
is replaced by `defaultValue` when `noneIsValid` is `false`. -/
def lookUpKey (data : Json) (keys : List JsKey) (defaultValue : Json)
    (noneIsValid : Bool) : Json :=
  match keys with
  | [] =>
    match data with
    | .null => if noneIsValid then Json.null else defaultValue
    | d => d
  | k :: rest =>
    match data with
    | .arr xs =>
      match k with
      | .inl _ => defaultValue
      | .inr i =>
        if 0 ≤ i ∧ i < (xs.length : Int) then
          lookUpKey (xs.getD i.toNat Json.null) rest defaultValue noneIsValid
        else defaultValue
    | .obj fields =>
      match lookupField fields (keyStr k) with
      | some v => lookUpKey v rest defaultValue noneIsValid
      | none => defaultValue
    | _ => defaultValue

/-- Resolution of a key path as the spec describes it: `some` exactly when
every step lands on a present member, `none` on a missing object key, a
non-numeric or out-of-bounds array index, or a non-object intermediate. -/
def lookUpKeySpec (data : Json) : List JsKey → Option Json
  | [] => some data
  | k :: rest =>
    match data with
    | .arr xs =>
      match k with
      | .inl _ => none
      | .inr i =>
        if 0 ≤ i ∧ i < (xs.length : Int) then
          lookUpKeySpec (xs.getD i.toNat Json.null) rest
        else none
    | .obj fields =>
      match lookupField fields (keyStr k) with
      | some v => lookUpKeySpec v rest
      | none => none
    | _ => none

/-- C10: the key-path accessor is total — it is a total function of its
inputs, and it agrees with the declarative resolution everywhere: a resolved
path returns the resolved value (`defaultValue` for a final `null` when
`noneIsValid` is off), and every failure — missing object key, bad or
out-of-bounds array index, non-object intermediate — returns the supplied
default value instead of an error. -/
theorem C10_lookUpKey_total (data : Json) (keys : List JsKey) (defaultValue : Json)
    (noneIsValid : Bool) :
    lookUpKey data keys defaultValue noneIsValid =
      match lookUpKeySpec data keys with
      | none => defaultValue
      | some Json.null => if noneIsValid then Json.null else defaultValue
      | some v => v := by
  induction keys generalizing data with
  | nil =>
    cases data <;> rfl
  | cons k rest ih =>
    cases data with
    | null => rfl
    | bool b => rfl
    | num n => rfl
    | str s => rfl
    | arr xs =>
      cases k with
      | inl s => rfl
      | inr i =>
        by_cases hb : 0 ≤ i ∧ i < (xs.length : Int)
        · simp only [lookUpKey, lookUpKeySpec, hb, if_true]
          exact ih (xs.getD i.toNat Json.null)
        · simp only [lookUpKey, lookUpKeySpec, hb, if_false]
    | obj fields =>
      cases hf : lookupField fields (keyStr k) with
      | none => simp only [lookUpKey, lookUpKeySpec, hf]
      | some v =>
        simp only [lookUpKey, lookUpKeySpec, hf]
        exact ih v

/-! ## Round-trip of the checkpoint codec: digits -/

/-- Folding decimal digit characters onto an accumulator, as `parseDigits`
does. -/
def foldDigits (acc : Nat) (ds : List Char) : Nat :=
  ds.foldl (fun a c => a * 10 + digitVal c) acc

theorem digitVal_digitChar (d : Nat) (h : d < 10) : digitVal (digitChar d) = d := by
  interval_cases d <;> rfl

theorem isDigitChar_digitChar (d : Nat) (h : d < 10) : isDigitChar (digitChar d) = true := by
  interval_cases d <;> rfl

theorem parseDigits_append (ds : List Char) (hds : ∀ c ∈ ds, isDigitChar c = true) :
    ∀ (acc : Nat) (rest : List Char), noDigitHead rest = true →
      parseDigits (ds ++ rest) acc = (foldDigits acc ds, rest) := by
  induction ds with
  | nil =>
    intro acc rest hrest
    cases rest with
    | nil => rfl
    | cons c cs =>
      have hc : isDigitChar c = false := by simpa [noDigitHead] using hrest
      simp [parseDigits, hc, foldDigits]
  | cons d ds ih =>
    intro acc rest hrest
    have hd : isDigitChar d = true := hds d (by simp)
    have htail : ∀ c ∈ ds, isDigitChar c = true := fun c hc => hds c (by simp [hc])
    have hstep : (d :: ds) ++ rest = d :: (ds ++ rest) := rfl
    rw [hstep]
    simp only [parseDigits, hd, if_true]
    show parseDigits (ds ++ rest) (acc * 10 + digitVal d) = (foldDigits acc (d :: ds), rest)
    rw [ih htail (acc * 10 + digitVal d) rest hrest]
    rfl

theorem foldDigits_reverse_map (L : List Nat) (hL : ∀ d ∈ L, d < 10) :
    ∀ acc, foldDigits acc (L.reverse.map digitChar) =
      acc * 10 ^ L.length + Nat.ofDigits 10 L := by
  induction L with
  | nil =>
    intro acc
    simp [foldDigits, Nat.ofDigits]
  | cons d L ih =>
    intro acc
    have hd : d < 10 := hL d (by simp)
    have htail : ∀ x ∈ L, x < 10 := fun x hx => hL x (by simp [hx])
    simp only [List.reverse_cons, List.map_append, List.map_cons, List.map_nil]
    unfold foldDigits
    rw [List.foldl_append]
    have hfold := ih htail acc
    unfold foldDigits at hfold
    rw [hfold]
    simp only [List.foldl_cons, List.foldl_nil, digitVal_digitChar d hd,
      Nat.ofDigits_cons, List.length_cons]
    ring

theorem printNat_spec (n : Nat) :
    (∀ c ∈ printNat n, isDigitChar c = true) ∧
    foldDigits 0 (printNat n) = n ∧ printNat n ≠ [] := by
  by_cases h : n = 0
  · subst h
    refine ⟨?_, rfl, by decide⟩
    intro c hc
    simp only [printNat, if_true] at hc
    simp only [List.mem_singleton] at hc
    subst hc
    rfl
  · have hdig : ∀ d ∈ Nat.digits 10 n, d < 10 := fun d hd =>
      Nat.digits_lt_base (by norm_num) hd
    constructor
    · intro c hc
      simp only [printNat, h, if_false, List.mem_map, List.mem_reverse] at hc
      obtain ⟨d, hd, rfl⟩ := hc
      exact isDigitChar_digitChar d (hdig d hd)
    constructor
    · simp only [printNat, h, if_false]
      rw [foldDigits_reverse_map _ hdig 0]
      simp [Nat.ofDigits_digits]
    · simp only [printNat, h, if_false, ne_eq, List.map_eq_nil_iff, List.reverse_eq_nil_iff]
      exact (Nat.digits_ne_nil_iff_ne_zero).mpr h

/-- A decimal digit character is none of the other value-starting
characters. -/
theorem isDigitChar_ne (c : Char) (h : isDigitChar c = true) :
    c ≠ 'n' ∧ c ≠ 't' ∧ c ≠ 'f' ∧ c ≠ '"' ∧ c ≠ '[' ∧ c ≠ '{' ∧ c ≠ '-' ∧
    c ≠ ']' ∧ c ≠ '}' ∧ c ≠ ',' ∧ c ≠ ':' ∧ c ≠ '\n' ∧ isWsChar c = false := by
  refine ⟨?_, ?_, ?_, ?_, ?_, ?_, ?_, ?_, ?_, ?_, ?_, ?_, ?_⟩
  all_goals try (intro he; subst he; exact absurd h (by decide))
  by_contra hw
  simp only [Bool.not_eq_false] at hw
  simp only [isWsChar, Bool.or_eq_true, decide_eq_true_eq] at hw
  rcases hw with ((((rfl | rfl) | rfl) | rfl) | rfl) | rfl <;> exact absurd h (by decide)

/-! ## Round-trip of the checkpoint codec: strings -/

theorem char_toNat_injective (a b : Char) (h : a.toNat = b.toNat) : a = b :=
  Char.eq_of_val_eq (UInt32.eq_of_toBitVec_eq (BitVec.eq_of_toNat_eq h))

theorem charOfNat_toNat_of_lt (c : Char) (h : c.toNat < 32) : Char.ofNat c.toNat = c := by
  have h2 : ∀ m : Fin 32, (Char.ofNat m.1).toNat = m.1 := by decide
  exact char_toNat_injective _ _ (h2 ⟨c.toNat, h⟩)

theorem hexVal_hexDigitChar (d : Nat) (h : d < 16) : hexVal (hexDigitChar d) = d := by
  interval_cases d <;> rfl

theorem isHexChar_hexDigitChar (d : Nat) (h : d < 16) : isHexChar (hexDigitChar d) = true := by
  interval_cases d <;> rfl

theorem psb_step_quote (T : List Char) : parseStringBody ('"' :: T) = some ([], T) := by
  rw [parseStringBody.eq_def]
  rfl

theorem psb_step_esc_quote (T : List Char) :
    parseStringBody ('\\' :: '"' :: T) =
      (parseStringBody T).map (fun p => ('"' :: p.1, p.2)) := by
  rw [parseStringBody.eq_def]
  rfl

theorem psb_step_esc_backslash (T : List Char) :
    parseStringBody ('\\' :: '\\' :: T) =
      (parseStringBody T).map (fun p => ('\\' :: p.1, p.2)) := by
  rw [parseStringBody.eq_def]
  rfl

theorem psb_step_esc_b (T : List Char) :
    parseStringBody ('\\' :: 'b' :: T) =
      (parseStringBody T).map (fun p => ('\x08' :: p.1, p.2)) := by
  rw [parseStringBody.eq_def]
  rfl

theorem psb_step_esc_t (T : List Char) :
    parseStringBody ('\\' :: 't' :: T) =
      (parseStringBody T).map (fun p => ('\t' :: p.1, p.2)) := by
  rw [parseStringBody.eq_def]
  rfl

theorem psb_step_esc_n (T : List Char) :
    parseStringBody ('\\' :: 'n' :: T) =
      (parseStringBody T).map (fun p => ('\n' :: p.1, p.2)) := by
  rw [parseStringBody.eq_def]
  rfl

theorem psb_step_esc_f (T : List Char) :
    parseStringBody ('\\' :: 'f' :: T) =
      (parseStringBody T).map (fun p => ('\x0c' :: p.1, p.2)) := by
  rw [parseStringBody.eq_def]
  rfl

theorem psb_step_esc_r (T : List Char) :
    parseStringBody ('\\' :: 'r' :: T) =
      (parseStringBody T).map (fun p => ('\r' :: p.1, p.2)) := by
  rw [parseStringBody.eq_def]
  rfl

theorem psb_step_u (h3 h4 : Char) (T : List Char) :
    parseStringBody ('\\' :: 'u' :: '0' :: '0' :: h3 :: h4 :: T) =
      (if isHexChar '0' && isHexChar '0' && isHexChar h3 && isHexChar h4 then
        (parseStringBody T).map (fun p =>
          (Char.ofNat (hexVal '0' * 4096 + hexVal '0' * 256 + hexVal h3 * 16 + hexVal h4) ::
            p.1, p.2))
      else none) := by
  rw [parseStringBody.eq_def]
  rfl

theorem psb_step_plain (c : Char) (T : List Char) (h1 : c ≠ '"') (h2 : c ≠ '\\') :
    parseStringBody (c :: T) = (parseStringBody T).map (fun p => (c :: p.1, p.2)) := by
  rw [parseStringBody.eq_def]
  dsimp only
  simp only [if_neg h1, if_neg h2]

/-- The string-body parser inverts `JSON.stringify`'s character escaping. -/
theorem parseStringBody_escape (s : List Char) :
    ∀ rest, parseStringBody (s.flatMap escChar ++ '"' :: rest) = some (s, rest) := by
  induction s with
  | nil =>
    intro rest
    rw [List.flatMap_nil, List.nil_append, psb_step_quote]
  | cons c s ih =>
    intro rest
    rw [List.flatMap_cons, List.append_assoc]
    by_cases h1 : c = '"'
    · subst h1
      rw [show escChar '"' = ['\\', '"'] from by decide, List.cons_append,
        List.cons_append, List.nil_append, psb_step_esc_quote, ih rest]
      rfl
    by_cases h2 : c = '\\'
    · subst h2
      rw [show escChar '\\' = ['\\', '\\'] from by decide, List.cons_append,
        List.cons_append, List.nil_append, psb_step_esc_backslash, ih rest]
      rfl
    by_cases h3 : c = '\x08'
    · subst h3
      rw [show escChar '\x08' = ['\\', 'b'] from by decide, List.cons_append,
        List.cons_append, List.nil_append, psb_step_esc_b, ih rest]
      rfl
    by_cases h4 : c = '\t'
    · subst h4
      rw [show escChar '\t' = ['\\', 't'] from by decide, List.cons_append,
        List.cons_append, List.nil_append, psb_step_esc_t, ih rest]
      rfl
    by_cases h5 : c = '\n'
    · subst h5
      rw [show escChar '\n' = ['\\', 'n'] from by decide, List.cons_append,
        List.cons_append, List.nil_append, psb_step_esc_n, ih rest]
      rfl
    by_cases h6 : c = '\x0c'
    · subst h6
      rw [show escChar '\x0c' = ['\\', 'f'] from by decide, List.cons_append,
        List.cons_append, List.nil_append, psb_step_esc_f, ih rest]
      rfl
    by_cases h7 : c = '\r'
    · subst h7
      rw [show escChar '\r' = ['\\', 'r'] from by decide, List.cons_append,
        List.cons_append, List.nil_append, psb_step_esc_r, ih rest]
      rfl
    by_cases hlt : c.toNat < 32
    · have hesc : escChar c = ['\\', 'u', '0', '0',
          hexDigitChar (c.toNat / 16), hexDigitChar (c.toNat % 16)] := by
        simp [escChar, h1, h2, h3, h4, h5, h6, h7, hlt]
      have hhi : c.toNat / 16 < 16 := by omega
      have hlo : c.toNat % 16 < 16 := by omega
      rw [hesc, List.cons_append, List.cons_append, List.cons_append, List.cons_append,
        List.cons_append, List.cons_append, List.nil_append, psb_step_u,
        isHexChar_hexDigitChar _ hhi, isHexChar_hexDigitChar _ hlo]
      have h00 : isHexChar '0' = true := rfl
      rw [h00]
      simp only [Bool.and_true, Bool.true_and, if_true]
      rw [ih rest]
      have hchar : hexVal '0' * 4096 + hexVal '0' * 256 +
          hexVal (hexDigitChar (c.toNat / 16)) * 16 +
          hexVal (hexDigitChar (c.toNat % 16)) = c.toNat := by
        rw [hexVal_hexDigitChar _ hhi, hexVal_hexDigitChar _ hlo]
        have h0 : hexVal '0' = 0 := rfl
        rw [h0]
        omega
      rw [hchar, charOfNat_toNat_of_lt c hlt]
      rfl
    · have hesc : escChar c = [c] := by
        simp [escChar, h1, h2, h3, h4, h5, h6, h7, hlt]
      rw [hesc, List.singleton_append, psb_step_plain c _ h1 h2, ih rest]
      rfl

/-! ## Round-trip of the checkpoint codec: numbers and heads -/

/-- One unfolding step of `parseVal` on positive fuel and a non-empty
input. -/
theorem parseVal_succ_cons (f : Nat) (c : Char) (rest : List Char) :
    parseVal (f + 1) (c :: rest) =
      (if c = 'n' then
        match rest with
        | 'u' :: 'l' :: 'l' :: r => some (Json.null, r)
        | _ => none
      else if c = 't' then
        match rest with
        | 'r' :: 'u' :: 'e' :: r => some (Json.bool true, r)
        | _ => none
      else if c = 'f' then
        match rest with
        | 'a' :: 'l' :: 's' :: 'e' :: r => some (Json.bool false, r)
        | _ => none
      else if c = '"' then
        (parseStringBody rest).map (fun p => (Json.str p.1, p.2))
      else if c = '[' then
        match rest with
        | [] => none
        | r :: r2 =>
          if r = ']' then some (Json.arr [], r2)
          else (parseItems f (r :: r2)).map (fun p => (Json.arr p.1, p.2))
      else if c = '{' then
        match rest with
        | [] => none
        | r :: r2 =>
          if r = '}' then some (Json.obj [], r2)
          else (parseFields f (r :: r2)).map (fun p => (Json.obj p.1, p.2))
      else if c = '-' then
        match rest with
        | [] => none
        | d2 :: r2 =>
          if isDigitChar d2 then
            let p := parseDigits r2 (digitVal d2)
            some (Json.num (-(p.1 : Int)), p.2)
          else none
      else if isDigitChar c then
        let p := parseDigits rest (digitVal c)
        some (Json.num (p.1 : Int), p.2)
      else none) := rfl

/-- One unfolding step of `parseItems` on positive fuel. -/
theorem parseItems_succ (f : Nat) (cs : List Char) :
    parseItems (f + 1) cs =
      (match parseVal f cs with
      | none => none
      | some (v, rest) =>
        match rest with
        | [] => none
        | r :: r2 =>
          if r = ',' then (parseItems f r2).map (fun p => (v :: p.1, p.2))
          else if r = ']' then some ([v], r2)
          else none) := rfl

/-- One unfolding step of `parseFields` on positive fuel. -/
theorem parseFields_succ (f : Nat) (cs : List Char) :
    parseFields (f + 1) cs =
      (match cs with
      | [] => none
      | c :: rest =>
        if c = '"' then
          match parseStringBody rest with
          | none => none
          | some (k, r2) =>
            match r2 with
            | [] => none
            | c2 :: r3 =>
              if c2 = ':' then
                match parseVal f r3 with
                | none => none
                | some (v, r4) =>
                  match r4 with
                  | [] => none
                  | c3 :: r5 =>
                    if c3 = ',' then
                      (parseFields f r5).map (fun p => ((k, v) :: p.1, p.2))
                    else if c3 = '}' then some ([(k, v)], r5)
                    else none
              else none
        else none) := rfl

theorem parseVal_nat_digits (f : Nat) (d : Char) (ds rest : List Char)
    (hd : isDigitChar d = true) (hds : ∀ c ∈ ds, isDigitChar c = true)
    (hrest : noDigitHead rest = true) :
    parseVal (f + 1) (d :: (ds ++ rest)) =
      some (.num ((foldDigits (digitVal d) ds : Nat) : Int), rest) := by
  obtain ⟨hn, ht, hf2, hq, hlb, hlc, hm, _⟩ := isDigitChar_ne d hd
  rw [parseVal_succ_cons, if_neg hn, if_neg ht, if_neg hf2, if_neg hq, if_neg hlb,
    if_neg hlc, if_neg hm, if_pos hd, parseDigits_append ds hds (digitVal d) rest hrest]

theorem parseVal_neg_digits (f : Nat) (d : Char) (ds rest : List Char)
    (hd : isDigitChar d = true) (hds : ∀ c ∈ ds, isDigitChar c = true)
    (hrest : noDigitHead rest = true) :
    parseVal (f + 1) ('-' :: (d :: (ds ++ rest))) =
      some (.num (-((foldDigits (digitVal d) ds : Nat) : Int)), rest) := by
  rw [parseVal_succ_cons,
    if_neg (show ('-' : Char) ≠ 'n' from by decide),
    if_neg (show ('-' : Char) ≠ 't' from by decide),
    if_neg (show ('-' : Char) ≠ 'f' from by decide),
    if_neg (show ('-' : Char) ≠ '"' from by decide),
    if_neg (show ('-' : Char) ≠ '[' from by decide),
    if_neg (show ('-' : Char) ≠ '{' from by decide),
    if_pos (rfl : ('-' : Char) = '-')]
  dsimp only
  rw [if_pos hd, parseDigits_append ds hds (digitVal d) rest hrest]

/-- The rendering of any value is non-empty and starts with one of the
value-starting characters. -/
theorem printJson_head (j : Json) : ∃ c cs, printJson j = c :: cs ∧
    (c = 'n' ∨ c = 't' ∨ c = 'f' ∨ c = '"' ∨ c = '[' ∨ c = '{' ∨ c = '-' ∨
      isDigitChar c = true) := by
  cases j with
  | null => exact ⟨'n', _, rfl, by simp⟩
  | bool b =>
    cases b with
    | true => exact ⟨'t', _, rfl, by simp⟩
    | false => exact ⟨'f', _, rfl, by simp⟩
  | num n =>
    by_cases hneg : n < 0
    · refine ⟨'-', printNat n.natAbs, ?_, by simp⟩
      show printInt n = _
      simp [printInt, hneg]
    · obtain ⟨hdig, _, hne⟩ := printNat_spec n.toNat
      cases hpn : printNat n.toNat with
      | nil => exact absurd hpn hne
      | cons d ds =>
        refine ⟨d, ds, ?_, ?_⟩
        · show printInt n = _
          simp [printInt, hneg, hpn]
        · exact Or.inr (Or.inr (Or.inr (Or.inr (Or.inr (Or.inr (Or.inr
            (hdig d (by rw [hpn]; simp))))))))
  | str s => exact ⟨'"', _, rfl, by simp⟩
  | arr xs => exact ⟨'[', _, rfl, by simp⟩
  | obj fs => exact ⟨'{', _, rfl, by simp⟩

/-- Every value-starting character differs from the structural delimiters. -/
theorem head_ne_delims (c : Char)
    (h : c = 'n' ∨ c = 't' ∨ c = 'f' ∨ c = '"' ∨ c = '[' ∨ c = '{' ∨ c = '-' ∨
      isDigitChar c = true) :
    c ≠ ']' ∧ c ≠ '}' ∧ isWsChar c = false := by
  rcases h with rfl | rfl | rfl | rfl | rfl | rfl | rfl | hd
  · exact ⟨by decide, by decide, by decide⟩
  · exact ⟨by decide, by decide, by decide⟩
  · exact ⟨by decide, by decide, by decide⟩
  · exact ⟨by decide, by decide, by decide⟩
  · exact ⟨by decide, by decide, by decide⟩
  · exact ⟨by decide, by decide, by decide⟩
  · exact ⟨by decide, by decide, by decide⟩
  · obtain ⟨_, _, _, _, _, _, _, h8, h9, _, _, _, h13⟩ := isDigitChar_ne c hd
    exact ⟨h8, h9, h13⟩

theorem printJsonList_eq_map (xs : List Json) : printJsonList xs = xs.map printJson := by
  induction xs with
  | nil => rfl
  | cons x rest ih => simp [printJsonList, ih]

theorem printJsonFields_eq_map (fs : List (List Char × Json)) :
    printJsonFields fs =
      fs.map (fun kv => '"' :: kv.1.flatMap escChar ++ '"' :: ':' :: printJson kv.2) := by
  induction fs with
  | nil => rfl
  | cons kv rest ih =>
    obtain ⟨k, v⟩ := kv
    simp [printJsonFields, ih]

theorem hexDigitChar_ne_newline (d : Nat) : hexDigitChar d ≠ '\n' := by
  unfold hexDigitChar
  split <;> decide

theorem digitChar_ne_newline (d : Nat) : digitChar d ≠ '\n' := by
  unfold digitChar
  split <;> decide

theorem escChar_no_newline (ch : Char) : '\n' ∉ escChar ch := by
  unfold escChar
  split
  · decide
  split
  · decide
  split
  · decide
  split
  · decide
  split
  · decide
  split
  · decide
  split
  · decide
  split
  · intro hmem
    simp only [List.mem_cons, List.not_mem_nil, or_false] at hmem
    rcases hmem with h | h | h | h | h | h
    · exact absurd h.symm (by decide)
    · exact absurd h.symm (by decide)
    · exact absurd h.symm (by decide)
    · exact absurd h.symm (by decide)
    · exact absurd h.symm (hexDigitChar_ne_newline _)
    · exact absurd h.symm (hexDigitChar_ne_newline _)
  · rename_i hnot
    intro hmem
    simp only [List.mem_singleton] at hmem
    subst hmem
    exact hnot (by decide)

theorem printNat_no_newline (n : Nat) : '\n' ∉ printNat n := by
  intro hmem
  have hd := (printNat_spec n).1 '\n' hmem
  exact absurd hd (by decide)

theorem printInt_no_newline (i : Int) : '\n' ∉ printInt i := by
  unfold printInt
  split
  · intro hmem
    simp only [List.mem_cons] at hmem
    rcases hmem with h | h
    · exact absurd h (by decide)
    · exact printNat_no_newline _ h
  · exact printNat_no_newline _

theorem joinComma_no_newline (ls : List (List Char)) (h : ∀ l ∈ ls, '\n' ∉ l) :
    '\n' ∉ joinComma ls := by
  induction ls with
  | nil => simp [joinComma]
  | cons x rest ih =>
    cases rest with
    | nil => exact h x (by simp)
    | cons y ys =>
      intro hmem
      rw [show joinComma (x :: y :: ys) = x ++ ',' :: joinComma (y :: ys) from rfl] at hmem
      rw [List.mem_append] at hmem
      rcases hmem with hm | hm
      · exact h x (by simp) hm
      · simp only [List.mem_cons] at hm
        rcases hm with hm | hm
        · exact absurd hm (by decide)
        · exact ih (fun l hl => h l (by simp [hl])) hm

/-- A rendered value never contains a newline, so one checkpoint row stays on
one line. -/
theorem printJson_no_newline (j : Json) : '\n' ∉ printJson j := by
  induction j using Json.recAux with
  | hnull => decide
  | hbool b => cases b <;> decide
  | hnum n => exact printInt_no_newline n
  | hstr s =>
    intro hmem
    rw [show printJson (Json.str s) = '"' :: (s.flatMap escChar ++ ['"']) from rfl] at hmem
    rcases List.mem_cons.mp hmem with h | hmem2
    · exact absurd h (by decide)
    rcases List.mem_append.mp hmem2 with h | h
    · obtain ⟨c2, _, hc2⟩ := List.mem_flatMap.mp h
      exact escChar_no_newline c2 hc2
    · exact absurd (List.mem_singleton.mp h) (by decide)
  | harr xs ih =>
    intro hmem
    rw [show printJson (Json.arr xs) =
      '[' :: (joinComma (printJsonList xs) ++ [']']) from rfl] at hmem
    rcases List.mem_cons.mp hmem with h | hmem2
    · exact absurd h (by decide)
    rcases List.mem_append.mp hmem2 with h | h
    · refine joinComma_no_newline _ ?_ h
      intro l hl
      rw [printJsonList_eq_map] at hl
      obtain ⟨x, hx, rfl⟩ := List.mem_map.mp hl
      exact ih x hx
    · exact absurd (List.mem_singleton.mp h) (by decide)
  | hobj fs ih =>
    intro hmem
    rw [show printJson (Json.obj fs) =
      '{' :: (joinComma (printJsonFields fs) ++ ['}']) from rfl] at hmem
    rcases List.mem_cons.mp hmem with h | hmem2
    · exact absurd h (by decide)
    rcases List.mem_append.mp hmem2 with h | h
    · refine joinComma_no_newline _ ?_ h
      intro l hl
      rw [printJsonFields_eq_map] at hl
      obtain ⟨kv, hkv, rfl⟩ := List.mem_map.mp hl
      intro hm
      rcases List.mem_cons.mp hm with h2 | hm2
      · exact absurd h2 (by decide)
      rcases List.mem_append.mp hm2 with h2 | h2
      · obtain ⟨c2, _, hc2⟩ := List.mem_flatMap.mp h2
        exact escChar_no_newline c2 hc2
      rcases List.mem_cons.mp h2 with h3 | h3
      · exact absurd h3 (by decide)
      rcases List.mem_cons.mp h3 with h4 | h4
      · exact absurd h4 (by decide)
      · exact ih kv hkv h4
    · exact absurd (List.mem_singleton.mp h) (by decide)

/-- A rendered value is kept by `loadJsonl`'s blank-line filter. -/
theorem lineKept_printJson (j : Json) : lineKept (printJson j) = true := by
  obtain ⟨c, cs, heq, hstart⟩ := printJson_head j
  obtain ⟨_, _, hws⟩ := head_ne_delims c hstart
  rw [heq]
  simp [lineKept, hws]

/-- The element-list parser inverts the element-list rendering, given the
inversion for each element. -/
theorem parseItems_printJsonList (xs : List Json)
    (hP : ∀ x ∈ xs, ∀ f rest, jsonFuel x ≤ f → noDigitHead rest = true →
      parseVal f (printJson x ++ rest) = some (x, rest)) :
    xs ≠ [] →
    ∀ (f : Nat) (rest : List Char), jsonFuelItems xs ≤ f →
      parseItems f (joinComma (printJsonList xs) ++ ']' :: rest) = some (xs, rest) := by
  induction xs with
  | nil => exact fun h => absurd rfl h
  | cons x xs ih =>
    intro _ f rest hf
    have hfi : 1 + jsonFuel x + jsonFuelItems xs ≤ f := hf
    obtain ⟨f2, rfl⟩ : ∃ f2, f = f2 + 1 := ⟨f - 1, by omega⟩
    cases xs with
    | nil =>
      rw [show joinComma (printJsonList [x]) = printJson x from rfl, parseItems_succ,
        hP x (by simp) f2 (']' :: rest) (by omega) rfl]
      dsimp only
      rw [if_neg (show (']' : Char) ≠ ',' from by decide), if_pos rfl]
    | cons y ys =>
      rw [show joinComma (printJsonList (x :: y :: ys)) =
        printJson x ++ ',' :: joinComma (printJsonList (y :: ys)) from rfl,
        List.append_assoc, List.cons_append, parseItems_succ,
        hP x (by simp) f2 (',' :: (joinComma (printJsonList (y :: ys)) ++ ']' :: rest))
          (by omega) rfl]
      dsimp only
      rw [if_pos rfl,
        ih (fun z hz => hP z (by simp [hz])) (by simp) f2 rest
          (by simp only [jsonFuelItems] at hfi ⊢; omega)]
      rfl

/-- The field-list parser inverts the field-list rendering, given the
inversion for each field value. -/
theorem parseFields_printJsonFields (fs : List (List Char × Json))
    (hP : ∀ kv ∈ fs, ∀ f rest, jsonFuel kv.2 ≤ f → noDigitHead rest = true →
      parseVal f (printJson kv.2 ++ rest) = some (kv.2, rest)) :
    fs ≠ [] →
    ∀ (f : Nat) (rest : List Char), jsonFuelFields fs ≤ f →
      parseFields f (joinComma (printJsonFields fs) ++ '}' :: rest) = some (fs, rest) := by
  induction fs with
  | nil => exact fun h => absurd rfl h
  | cons kv fs ih =>
    obtain ⟨k, v⟩ := kv
    intro _ f rest hf
    have hfi : 1 + jsonFuel v + jsonFuelFields fs ≤ f := hf
    obtain ⟨f2, rfl⟩ : ∃ f2, f = f2 + 1 := ⟨f - 1, by omega⟩
    cases fs with
    | nil =>
      have hshape : joinComma (printJsonFields [(k, v)]) ++ '}' :: rest =
          '"' :: (k.flatMap escChar ++ '"' :: (':' :: (printJson v ++ '}' :: rest))) := by
        rw [show joinComma (printJsonFields [(k, v)]) =
          '"' :: (k.flatMap escChar ++ '"' :: ':' :: printJson v) from rfl]
        simp
      rw [hshape, parseFields_succ]
      dsimp only
      rw [if_pos rfl, parseStringBody_escape k (':' :: (printJson v ++ '}' :: rest))]
      dsimp only
      rw [if_pos rfl, hP (k, v) (by simp) f2 ('}' :: rest) (by show jsonFuel v ≤ f2; omega) rfl]
      dsimp only
      rw [if_neg (show ('}' : Char) ≠ ',' from by decide), if_pos rfl]
    | cons kv2 fs2 =>
      have hshape : joinComma (printJsonFields ((k, v) :: kv2 :: fs2)) ++ '}' :: rest =
          '"' :: (k.flatMap escChar ++ '"' :: (':' :: (printJson v ++
            ',' :: (joinComma (printJsonFields (kv2 :: fs2)) ++ '}' :: rest)))) := by
        rw [show joinComma (printJsonFields ((k, v) :: kv2 :: fs2)) =
          ('"' :: (k.flatMap escChar ++ '"' :: ':' :: printJson v)) ++
            ',' :: joinComma (printJsonFields (kv2 :: fs2)) from rfl]
        simp
      rw [hshape, parseFields_succ]
      dsimp only
      rw [if_pos rfl,
        parseStringBody_escape k
          (':' :: (printJson v ++ ',' :: (joinComma (printJsonFields (kv2 :: fs2)) ++
            '}' :: rest)))]
      dsimp only
      rw [if_pos rfl,
        hP (k, v) (by simp) f2
          (',' :: (joinComma (printJsonFields (kv2 :: fs2)) ++ '}' :: rest))
          (by show jsonFuel v ≤ f2; omega) rfl]
      dsimp only
      rw [if_pos rfl,
        ih (fun z hz => hP z (by simp [hz])) (by simp) f2 rest
          (by simp only [jsonFuelFields] at hfi ⊢; omega)]
      rfl

/-- The parser inverts the renderer: parsing a rendered value with enough
fuel returns the value and leaves the trailing input untouched. -/
theorem parseVal_printJson (j : Json) :
    ∀ (f : Nat) (rest : List Char), jsonFuel j ≤ f → noDigitHead rest = true →
      parseVal f (printJson j ++ rest) = some (j, rest) := by
  induction j using Json.recAux with
  | hnull =>
    intro f rest hf _
    obtain ⟨f2, rfl⟩ : ∃ f2, f = f2 + 1 := ⟨f - 1, by simp [jsonFuel] at hf; omega⟩
    rw [show printJson Json.null ++ rest = 'n' :: 'u' :: 'l' :: 'l' :: rest from rfl,
      parseVal_succ_cons, if_pos rfl]
    rfl
  | hbool b =>
    intro f rest hf _
    obtain ⟨f2, rfl⟩ : ∃ f2, f = f2 + 1 := ⟨f - 1, by simp [jsonFuel] at hf; omega⟩
    cases b with
    | true =>
      rw [show printJson (Json.bool true) ++ rest = 't' :: 'r' :: 'u' :: 'e' :: rest from rfl,
        parseVal_succ_cons, if_neg (show ('t' : Char) ≠ 'n' from by decide), if_pos rfl]
      rfl
    | false =>
      rw [show printJson (Json.bool false) ++ rest =
        'f' :: 'a' :: 'l' :: 's' :: 'e' :: rest from rfl,
        parseVal_succ_cons, if_neg (show ('f' : Char) ≠ 'n' from by decide),
        if_neg (show ('f' : Char) ≠ 't' from by decide), if_pos rfl]
      rfl
  | hnum n =>
    intro f rest hf hrest
    obtain ⟨f2, rfl⟩ : ∃ f2, f = f2 + 1 := ⟨f - 1, by simp [jsonFuel] at hf; omega⟩
    by_cases hneg : n < 0
    · obtain ⟨hdig, hfold, hnn⟩ := printNat_spec n.natAbs
      cases hpn : printNat n.natAbs with
      | nil => exact absurd hpn hnn
      | cons d ds =>
        have hshape : printJson (Json.num n) ++ rest = '-' :: (d :: (ds ++ rest)) := by
          rw [show printJson (Json.num n) = printInt n from rfl]
          unfold printInt
          rw [if_pos hneg, hpn]
          rfl
        rw [hshape, parseVal_neg_digits f2 d ds rest
          (hdig d (by rw [hpn]; simp)) (fun c hc => hdig c (by rw [hpn]; simp [hc])) hrest]
        have hv : foldDigits (digitVal d) ds = n.natAbs := by
          rw [hpn] at hfold
          simpa [foldDigits] using hfold
        rw [hv]
        have : -((n.natAbs : Nat) : Int) = n := by omega
        rw [this]
    · obtain ⟨hdig, hfold, hnn⟩ := printNat_spec n.toNat
      cases hpn : printNat n.toNat with
      | nil => exact absurd hpn hnn
      | cons d ds =>
        have hshape : printJson (Json.num n) ++ rest = d :: (ds ++ rest) := by
          rw [show printJson (Json.num n) = printInt n from rfl]
          unfold printInt
          rw [if_neg hneg, hpn]
          rfl
        rw [hshape, parseVal_nat_digits f2 d ds rest
          (hdig d (by rw [hpn]; simp)) (fun c hc => hdig c (by rw [hpn]; simp [hc])) hrest]
        have hv : foldDigits (digitVal d) ds = n.toNat := by
          rw [hpn] at hfold
          simpa [foldDigits] using hfold
        rw [hv]
        have : ((n.toNat : Nat) : Int) = n := by omega
        rw [this]
  | hstr s =>
    intro f rest hf _
    obtain ⟨f2, rfl⟩ : ∃ f2, f = f2 + 1 := ⟨f - 1, by simp [jsonFuel] at hf; omega⟩
    have hshape : printJson (Json.str s) ++ rest =
        '"' :: (s.flatMap escChar ++ '"' :: rest) := by
      rw [show printJson (Json.str s) = '"' :: (s.flatMap escChar ++ ['"']) from rfl]
      simp
    rw [hshape, parseVal_succ_cons,
      if_neg (show ('"' : Char) ≠ 'n' from by decide),
      if_neg (show ('"' : Char) ≠ 't' from by decide),
      if_neg (show ('"' : Char) ≠ 'f' from by decide),
      if_pos rfl, parseStringBody_escape s rest]
    rfl
  | harr xs ih =>
    intro f rest hf _
    obtain ⟨f2, rfl⟩ : ∃ f2, f = f2 + 1 := ⟨f - 1, by
      simp only [jsonFuel] at hf; omega⟩
    cases xs with
    | nil =>
      rw [show printJson (Json.arr []) ++ rest = '[' :: ']' :: rest from rfl,
        parseVal_succ_cons,
        if_neg (show ('[' : Char) ≠ 'n' from by decide),
        if_neg (show ('[' : Char) ≠ 't' from by decide),
        if_neg (show ('[' : Char) ≠ 'f' from by decide),
        if_neg (show ('[' : Char) ≠ '"' from by decide),
        if_pos rfl]
      dsimp only
      rw [if_pos rfl]
    | cons x xs2 =>
      have hshape : printJson (Json.arr (x :: xs2)) ++ rest =
          '[' :: (joinComma (printJsonList (x :: xs2)) ++ ']' :: rest) := by
        rw [show printJson (Json.arr (x :: xs2)) =
          '[' :: (joinComma (printJsonList (x :: xs2)) ++ [']']) from rfl]
        simp
      obtain ⟨c, cs, hpx, hstart⟩ := printJson_head x
      obtain ⟨hne_rb, _, _⟩ := head_ne_delims c hstart
      have hT : ∃ T, joinComma (printJsonList (x :: xs2)) = c :: T := by
        cases xs2 with
        | nil =>
          exact ⟨cs, by rw [show joinComma (printJsonList [x]) = printJson x from rfl, hpx]⟩
        | cons z zs =>
          refine ⟨cs ++ ',' :: joinComma (printJsonList (z :: zs)), ?_⟩
          rw [show joinComma (printJsonList (x :: z :: zs)) =
            printJson x ++ ',' :: joinComma (printJsonList (z :: zs)) from rfl, hpx]
          rfl
      obtain ⟨T, hTe⟩ := hT
      rw [hshape, parseVal_succ_cons,
        if_neg (show ('[' : Char) ≠ 'n' from by decide),
        if_neg (show ('[' : Char) ≠ 't' from by decide),
        if_neg (show ('[' : Char) ≠ 'f' from by decide),
        if_neg (show ('[' : Char) ≠ '"' from by decide),
        if_pos rfl, hTe, List.cons_append]
      dsimp only
      rw [if_neg hne_rb, ← List.cons_append, ← hTe,
        parseItems_printJsonList (x :: xs2) ih (by simp) f2 rest (by
          simp only [jsonFuel] at hf; omega)]
      rfl
  | hobj fs ih =>
    intro f rest hf _
    obtain ⟨f2, rfl⟩ : ∃ f2, f = f2 + 1 := ⟨f - 1, by
      simp only [jsonFuel] at hf; omega⟩
    cases fs with
    | nil =>
      rw [show printJson (Json.obj []) ++ rest = '{' :: '}' :: rest from rfl,
        parseVal_succ_cons,
        if_neg (show ('{' : Char) ≠ 'n' from by decide),
        if_neg (show ('{' : Char) ≠ 't' from by decide),
        if_neg (show ('{' : Char) ≠ 'f' from by decide),
        if_neg (show ('{' : Char) ≠ '"' from by decide),
        if_neg (show ('{' : Char) ≠ '[' from by decide),
        if_pos rfl]
      dsimp only
      rw [if_pos rfl]
    | cons kv fs2 =>
      obtain ⟨k, v⟩ := kv
      have hshape : printJson (Json.obj ((k, v) :: fs2)) ++ rest =
          '{' :: (joinComma (printJsonFields ((k, v) :: fs2)) ++ '}' :: rest) := by
        rw [show printJson (Json.obj ((k, v) :: fs2)) =
          '{' :: (joinComma (printJsonFields ((k, v) :: fs2)) ++ ['}']) from rfl]
        simp
      have hT : ∃ T, joinComma (printJsonFields ((k, v) :: fs2)) = '"' :: T := by
        cases fs2 with
        | nil =>
          exact ⟨k.flatMap escChar ++ '"' :: ':' :: printJson v, by
            rw [show joinComma (printJsonFields [(k, v)]) =
              '"' :: (k.flatMap escChar ++ '"' :: ':' :: printJson v) from rfl]⟩
        | cons z zs =>
          refine ⟨(k.flatMap escChar ++ '"' :: ':' :: printJson v) ++
            ',' :: joinComma (printJsonFields (z :: zs)), ?_⟩
          rw [show joinComma (printJsonFields ((k, v) :: z :: zs)) =
            ('"' :: (k.flatMap escChar ++ '"' :: ':' :: printJson v)) ++
              ',' :: joinComma (printJsonFields (z :: zs)) from rfl]
          rfl
      obtain ⟨T, hTe⟩ := hT
      rw [hshape, parseVal_succ_cons,
        if_neg (show ('{' : Char) ≠ 'n' from by decide),
        if_neg (show ('{' : Char) ≠ 't' from by decide),
        if_neg (show ('{' : Char) ≠ 'f' from by decide),
        if_neg (show ('{' : Char) ≠ '"' from by decide),
        if_neg (show ('{' : Char) ≠ '[' from by decide),
        if_pos rfl, hTe, List.cons_append]
      dsimp only
      rw [if_neg (show ('"' : Char) ≠ '}' from by decide), ← List.cons_append, ← hTe,
        parseFields_printJsonFields ((k, v) :: fs2) ih (by simp) f2 rest (by
          simp only [jsonFuel] at hf; omega)]
      rfl

/-! ## Round-trip of the checkpoint codec: assembly -/

theorem jsonFuelItems_le (xs : List Json)
    (h : ∀ x ∈ xs, jsonFuel x ≤ (printJson x).length) :
    xs ≠ [] → jsonFuelItems xs ≤ (joinComma (printJsonList xs)).length + 1 := by
  induction xs with
  | nil => exact fun h2 => absurd rfl h2
  | cons x xs ih =>
    intro _
    cases xs with
    | nil =>
      have hx := h x (by simp)
      rw [show joinComma (printJsonList [x]) = printJson x from rfl]
      show 1 + jsonFuel x + 0 ≤ (printJson x).length + 1
      omega
    | cons y ys =>
      have hx := h x (by simp)
      have htail := ih (fun z hz => h z (by simp [hz])) (by simp)
      rw [show joinComma (printJsonList (x :: y :: ys)) =
        printJson x ++ ',' :: joinComma (printJsonList (y :: ys)) from rfl]
      show 1 + jsonFuel x + jsonFuelItems (y :: ys) ≤ _ + 1
      rw [List.length_append, List.length_cons]
      omega

theorem jsonFuelFields_le (fs : List (List Char × Json))
    (h : ∀ kv ∈ fs, jsonFuel kv.2 ≤ (printJson kv.2).length) :
    fs ≠ [] → jsonFuelFields fs ≤ (joinComma (printJsonFields fs)).length + 1 := by
  induction fs with
  | nil => exact fun h2 => absurd rfl h2
  | cons kv fs ih =>
    obtain ⟨k, v⟩ := kv
    intro _
    cases fs with
    | nil =>
      have hx := h (k, v) (by simp)
      rw [show joinComma (printJsonFields [(k, v)]) =
        '"' :: (k.flatMap escChar ++ '"' :: ':' :: printJson v) from rfl]
      show 1 + jsonFuel v + 0 ≤ _ + 1
      rw [List.length_cons, List.length_append, List.length_cons, List.length_cons]
      simp only at hx
      omega
    | cons kv2 fs2 =>
      have hx := h (k, v) (by simp)
      have htail := ih (fun z hz => h z (by simp [hz])) (by simp)
      rw [show joinComma (printJsonFields ((k, v) :: kv2 :: fs2)) =
        ('"' :: (k.flatMap escChar ++ '"' :: ':' :: printJson v)) ++
          ',' :: joinComma (printJsonFields (kv2 :: fs2)) from rfl]
      show 1 + jsonFuel v + jsonFuelFields (kv2 :: fs2) ≤ _ + 1
      rw [List.length_append, List.length_cons, List.length_cons, List.length_append,
        List.length_cons, List.length_cons]
      simp only at hx
      omega

/-- The fuel `jsonParse` passes to the parser (input length plus one) always
suffices for a rendered value. -/
theorem jsonFuel_le_print (j : Json) : jsonFuel j ≤ (printJson j).length := by
  induction j using Json.recAux with
  | hnull => decide
  | hbool b => cases b <;> decide
  | hnum n =>
    show 1 ≤ (printInt n).length
    unfold printInt
    split
    · simp
    · have := (printNat_spec n.toNat).2.2
      cases hpn : printNat n.toNat with
      | nil => exact absurd hpn this
      | cons d ds => simp [hpn]
  | hstr s =>
    show 1 ≤ ('"' :: (s.flatMap escChar ++ ['"'])).length
    simp
  | harr xs ih =>
    cases xs with
    | nil => decide
    | cons x xs2 =>
      have hit := jsonFuelItems_le (x :: xs2) ih (by simp)
      show 1 + jsonFuelItems (x :: xs2) ≤
        ('[' :: (joinComma (printJsonList (x :: xs2)) ++ [']'])).length
      rw [List.length_cons, List.length_append]
      simp only [List.length_singleton]
      omega
  | hobj fs ih =>
    cases fs with
    | nil => decide
    | cons kv fs2 =>
      have hit := jsonFuelFields_le (kv :: fs2) ih (by simp)
      show 1 + jsonFuelFields (kv :: fs2) ≤
        ('{' :: (joinComma (printJsonFields (kv :: fs2)) ++ ['}'])).length
      rw [List.length_cons, List.length_append]
      simp only [List.length_singleton]
      omega

/-- `JSON.parse` inverts `JSON.stringify` on one checkpoint row. -/
theorem jsonParse_printJson (j : Json) : jsonParse (printJson j) = some j := by
  unfold jsonParse
  have hb := jsonFuel_le_print j
  have h := parseVal_printJson j ((printJson j).length + 1) [] (by omega) rfl
  rw [List.append_nil] at h
  rw [h]

theorem splitNl_ne_nil (l : List Char) : splitNl l ≠ [] := by
  cases l with
  | nil => simp [splitNl]
  | cons c rest =>
    unfold splitNl
    split
    · simp
    · split <;> simp

theorem splitNl_cons_ne (c : Char) (rest : List Char) (hc : ¬c = '\n') :
    splitNl (c :: rest) = (c :: (splitNl rest).headI) :: (splitNl rest).tail := by
  rw [splitNl.eq_def]
  dsimp only
  rw [if_neg hc]
  cases hsr : splitNl rest with
  | nil => exact absurd hsr (splitNl_ne_nil rest)
  | cons a as => rfl

theorem splitNl_cons_nl (rest : List Char) : splitNl ('\n' :: rest) = [] :: splitNl rest := by
  rw [splitNl.eq_def]
  dsimp only
  rw [if_pos rfl]

theorem splitNl_append (l : List Char) (hl : '\n' ∉ l) (rest : List Char) :
    splitNl (l ++ rest) = (l ++ (splitNl rest).headI) :: (splitNl rest).tail := by
  induction l with
  | nil =>
    simp only [List.nil_append]
    cases h : splitNl rest with
    | nil => exact absurd h (splitNl_ne_nil rest)
    | cons a as => simp
  | cons c l ih =>
    have hc : ¬c = '\n' := fun h => hl (by simp [h])
    have hl2 : '\n' ∉ l := fun h => hl (by simp [h])
    rw [List.cons_append, splitNl_cons_ne c (l ++ rest) hc, ih hl2]
    simp

/-- Splitting on newlines undoes the newline join for newline-free lines. -/
theorem splitNl_joinNl (ls : List (List Char)) (h : ∀ l ∈ ls, '\n' ∉ l)
    (hne : ls ≠ []) : splitNl (joinNl ls) = ls := by
  induction ls with
  | nil => exact absurd rfl hne
  | cons x ls ih =>
    cases ls with
    | nil =>
      rw [show joinNl [x] = x from rfl]
      have hs := splitNl_append x (h x (by simp)) []
      rw [List.append_nil] at hs
      have h0 : splitNl ([] : List Char) = [[]] := rfl
      rw [h0] at hs
      simpa using hs
    | cons y ls2 =>
      rw [show joinNl (x :: y :: ls2) = x ++ '\n' :: joinNl (y :: ls2) from rfl,
        splitNl_append x (h x (by simp)) ('\n' :: joinNl (y :: ls2)),
        splitNl_cons_nl (joinNl (y :: ls2)),
        ih (fun l hl => h l (by simp [hl])) (by simp)]
      simp

theorem mapM_jsonParse_map (rows : List Json) :
    (rows.map printJson).mapM jsonParse = some rows := by
  induction rows with
  | nil => rfl
  | cons r rows ih =>
    rw [List.map_cons, List.mapM_cons, jsonParse_printJson r, ih]
    rfl

/-- C8: saving any row collection with `saveJsonl` and loading it back with
`loadJsonl` returns the same collection, field for field — including rows
carrying empty arrays such as an empty `reflection_loops`.  (The temp-file
write plus atomic rename of `saveJsonl` means the loaded content is exactly
the saved content.) -/
theorem C8_saveJsonl_loadJsonl_roundtrip (rows : List Json) :
    loadJsonlContent (saveJsonlContent rows) = some rows := by
  cases rows with
  | nil => rfl
  | cons r rows2 =>
    unfold loadJsonlContent saveJsonlContent
    have hnl : ∀ l ∈ (r :: rows2).map printJson, '\n' ∉ l := by
      intro l hl
      obtain ⟨x, _, rfl⟩ := List.mem_map.mp hl
      exact printJson_no_newline x
    have hne : (r :: rows2).map printJson ≠ [] := by simp
    rw [splitNl_joinNl _ hnl hne]
    have hkeep : ((r :: rows2).map printJson).filter lineKept = (r :: rows2).map printJson := by
      apply List.filter_eq_self.mpr
      intro l hl
      obtain ⟨x, _, rfl⟩ := List.mem_map.mp hl
      exact lineKept_printJson x
    rw [hkeep]
    exact mapM_jsonParse_map (r :: rows2)

/-! ## C1: effect of finalization -/

/-- Memoization only writes `average_grade`: the other loop fields are
unchanged. -/
theorem computeGradeForReflectionLoop_fields (c : Config) (l : ReflectionLoop) :
    ((computeGradeForReflectionLoop c l).2).grades = l.grades ∧
    ((computeGradeForReflectionLoop c l).2).graded_verse = l.graded_verse ∧
    ((computeGradeForReflectionLoop c l).2).graded_verse_comment = l.graded_verse_comment := by
  unfold computeGradeForReflectionLoop
  split
  · exact ⟨rfl, rfl, rfl⟩
  · dsimp only
    split
    · split
      · exact ⟨rfl, rfl, rfl⟩
      · exact ⟨rfl, rfl, rfl⟩
    · exact ⟨rfl, rfl, rfl⟩

/-- When a loop already carries enough grades, `computeGradeForReflectionLoop`
returns a grade and the returned loop carries it memoized. -/
theorem computeGradeForReflectionLoop_full (c : Config) (l : ReflectionLoop)
    (gs : List Grade) (hgs : l.grades = some gs)
    (hfull : ¬((gs.length : Int) < c.grades_per_reflection_loop))
    (hpos : 1 ≤ c.grades_per_reflection_loop) :
    ∃ a, (computeGradeForReflectionLoop c l).1 = some a ∧
      ((computeGradeForReflectionLoop c l).2).average_grade = some a := by
  unfold computeGradeForReflectionLoop
  cases hav : l.average_grade with
  | some a => exact ⟨a, rfl, hav⟩
  | none =>
    dsimp only
    rw [hgs]
    simp only [Option.getD_some]
    rw [if_pos (by omega : (0 : Int) < (gs.length : Int)), if_pos (by omega)]
    exact ⟨_, rfl, rfl⟩

/-- The memoization walk preserves the list length. -/
theorem computeVerseGradeLoops_length (c : Config) :
    ∀ L : List ReflectionLoop, ((computeVerseGradeLoops c L).2).length = L.length := by
  intro L
  induction L with
  | nil => rfl
  | cons l rest ih =>
    unfold computeVerseGradeLoops
    dsimp only
    split
    · simp
    · simpa using ih

/-- The best-loop scan returns the position of a maximal memoized average. -/
theorem selectBest_spec :
    ∀ (l : List ReflectionLoop) (i : Nat) (acc : Option (Nat × Rat)),
      (match selectBest l i acc with
      | none => acc = none ∧ ∀ loop ∈ l, loop.average_grade = none
      | some (k, g) =>
          (acc = some (k, g) ∨
            (∃ m, m < l.length ∧ k = i + m ∧ (l.getD m default).average_grade = some g)) ∧
          (∀ j a, acc = some (j, a) → a ≤ g) ∧
          (∀ m, m < l.length → ∀ a, (l.getD m default).average_grade = some a → a ≤ g)) := by
  intro l
  induction l with
  | nil =>
    intro i acc
    cases acc with
    | none => exact ⟨rfl, by simp⟩
    | some p =>
      obtain ⟨k, g⟩ := p
      exact ⟨Or.inl rfl, by
        intro j a h
        cases h
        rfl, by simp⟩
  | cons loop rest ih =>
    intro i acc
    unfold selectBest
    cases hav : loop.average_grade with
    | none =>
      have hspec := ih (i + 1) acc
      dsimp only
      cases hsb : selectBest rest (i + 1) acc with
      | none =>
        rw [hsb] at hspec
        refine ⟨hspec.1, ?_⟩
        intro z hz
        rcases List.mem_cons.mp hz with rfl | hz2
        · exact hav
        · exact hspec.2 z hz2
      | some p =>
        obtain ⟨k, g⟩ := p
        rw [hsb] at hspec
        obtain ⟨hpos, hacc, hmax⟩ := hspec
        refine ⟨?_, hacc, ?_⟩
        · rcases hpos with h | ⟨m, hm, hk, hgm⟩
          · exact Or.inl h
          · exact Or.inr ⟨m + 1, by simpa using hm, by omega, by simpa using hgm⟩
        · intro m hm a ha
          cases m with
          | zero =>
            rw [show (loop :: rest).getD 0 default = loop from rfl] at ha
            rw [hav] at ha
            cases ha
          | succ m2 =>
            exact hmax m2 (by simpa using hm) a (by simpa using ha)
    | some b =>
      dsimp only
      cases acc with
      | none =>
        dsimp only
        have hspec := ih (i + 1) (some (i, b))
        cases hsb : selectBest rest (i + 1) (some (i, b)) with
        | none =>
          rw [hsb] at hspec
          exact absurd hspec.1 (by simp)
        | some p =>
          obtain ⟨k, g⟩ := p
          rw [hsb] at hspec
          obtain ⟨hpos, hacc, hmax⟩ := hspec
          refine ⟨?_, ?_, ?_⟩
          · rcases hpos with h | ⟨m, hm, hk, hgm⟩
            · obtain ⟨h1, h2⟩ := Prod.mk.injEq .. ▸ Option.some.inj h
              exact Or.inr ⟨0, by simp, by omega, by
                rw [show (loop :: rest).getD 0 default = loop from rfl, hav, h2]⟩
            · exact Or.inr ⟨m + 1, by simpa using hm, by omega, by simpa using hgm⟩
          · intro j a h
            cases h
          · intro m hm a ha
            cases m with
            | zero =>
              rw [show (loop :: rest).getD 0 default = loop from rfl, hav] at ha
              obtain rfl := Option.some.inj ha
              exact hacc i b rfl
            | succ m2 =>
              exact hmax m2 (by simpa using hm) a (by simpa using ha)
      | some p0 =>
        obtain ⟨k0, g0⟩ := p0
        dsimp only
        by_cases hle : g0 ≤ b
        · have hspec := ih (i + 1) (some (i, b))
          rw [if_pos hle]
          cases hsb : selectBest rest (i + 1) (some (i, b)) with
          | none =>
            rw [hsb] at hspec
            exact absurd hspec.1 (by simp)
          | some p =>
            obtain ⟨k, g⟩ := p
            rw [hsb] at hspec
            obtain ⟨hpos, hacc, hmax⟩ := hspec
            have hbg : b ≤ g := hacc i b rfl
            refine ⟨?_, ?_, ?_⟩
            · rcases hpos with h | ⟨m, hm, hk, hgm⟩
              · obtain ⟨h1, h2⟩ := Prod.mk.injEq .. ▸ Option.some.inj h
                exact Or.inr ⟨0, by simp, by omega, by
                  rw [show (loop :: rest).getD 0 default = loop from rfl, hav, h2]⟩
              · exact Or.inr ⟨m + 1, by simpa using hm, by omega, by simpa using hgm⟩
            · intro j a h
              obtain ⟨h1, h2⟩ := Prod.mk.injEq .. ▸ Option.some.inj h
              subst h2
              exact le_trans hle hbg
            · intro m hm a ha
              cases m with
              | zero =>
                rw [show (loop :: rest).getD 0 default = loop from rfl, hav] at ha
                obtain rfl := Option.some.inj ha
                exact hbg
              | succ m2 =>
                exact hmax m2 (by simpa using hm) a (by simpa using ha)
        · have hspec := ih (i + 1) (some (k0, g0))
          rw [if_neg hle]
          cases hsb : selectBest rest (i + 1) (some (k0, g0)) with
          | none =>
            rw [hsb] at hspec
            exact absurd hspec.1 (by simp)
          | some p =>
            obtain ⟨k, g⟩ := p
            rw [hsb] at hspec
            obtain ⟨hpos, hacc, hmax⟩ := hspec
            have hg0 : g0 ≤ g := hacc k0 g0 rfl
            refine ⟨?_, ?_, ?_⟩
            · exact hpos.imp id (fun ⟨m, hm, hk, hgm⟩ =>
                ⟨m + 1, by simpa using hm, by omega, by simpa using hgm⟩)
            · intro j a h
              obtain ⟨h1, h2⟩ := Prod.mk.injEq .. ▸ Option.some.inj h
              subst h2
              exact hg0
            · intro m hm a ha
              cases m with
              | zero =>
                rw [show (loop :: rest).getD 0 default = loop from rfl, hav] at ha
                obtain rfl := Option.some.inj ha
                exact le_trans (le_of_not_le hle) hg0
              | succ m2 =>
                exact hmax m2 (by simpa using hm) a (by simpa using ha)

/-- `computeVerseGrade` leaves the translation fields untouched. -/
theorem computeVerseGrade_snd_translation (v : Verse) (c : Config) :
    ((computeVerseGrade v c).2).translation = v.translation ∧
    ((computeVerseGrade v c).2).translation_comment = v.translation_comment := by
  unfold computeVerseGrade
  split
  · exact ⟨rfl, rfl⟩
  · split
    · exact ⟨rfl, rfl⟩
    · split
      · exact ⟨rfl, rfl⟩
      · split
        · exact ⟨rfl, rfl⟩
        · exact ⟨rfl, rfl⟩

/-- On an unfinalized verse with a present reference and non-empty loops,
`computeVerseGrade` rewrites exactly the loop list with the memoization
walk. -/
theorem computeVerseGrade_unfinalized (v : Verse) (c : Config) (r : String)
    (ls : List ReflectionLoop)
    (href : v.reference = some r) (hls : v.reflection_loops = some ls)
    (hne : ls ≠ []) (hnf : v.reflection_is_finalized = false) :
    (computeVerseGrade v c).2 =
      { v with reflection_loops := some ((computeVerseGradeLoops c ls.reverse).2.reverse) } := by
  unfold computeVerseGrade verseIsFinalized
  rw [href, hls, hnf]
  simp [List.isEmpty_iff, hne]

/-- Memoizing a verse whose newest loop is fully graded leaves the earlier
loops in place and stamps an average onto the newest loop, preserving its
other fields. -/
theorem memoized_last (c : Config) (ls : List ReflectionLoop) (last : ReflectionLoop)
    (gs : List Grade) (hlast : ls.getLast? = some last) (hgs : last.grades = some gs)
    (hfull : ¬((gs.length : Int) < c.grades_per_reflection_loop))
    (hpos : 1 ≤ c.grades_per_reflection_loop) :
    ∃ a l2, (computeVerseGradeLoops c ls.reverse).2.reverse = ls.dropLast ++ [l2] ∧
      l2.average_grade = some a ∧ l2.graded_verse = last.graded_verse ∧
      l2.graded_verse_comment = last.graded_verse_comment ∧ l2.grades = last.grades := by
  obtain ⟨A, rfl⟩ := List.getLast?_eq_some_iff.mp hlast
  obtain ⟨a, hfst, hsnd⟩ := computeGradeForReflectionLoop_full c last gs hgs hfull hpos
  obtain ⟨hgr, hgv, hgc⟩ := computeGradeForReflectionLoop_fields c last
  refine ⟨a, (computeGradeForReflectionLoop c last).2, ?_, hsnd, ?_, ?_, ?_⟩
  · rw [show (A ++ [last]).reverse = last :: A.reverse from by simp]
    unfold computeVerseGradeLoops
    dsimp only
    rw [hfst]
    dsimp only
    rw [List.dropLast_concat]
    simp
  · rw [hgv]
  · rw [hgc]
  · rw [hgr]

theorem jsSliceStart_of_bounds (len : Nat) (i : Int) (h0 : 0 ≤ i) (hlt : i < (len : Int)) :
    jsSliceStart len i = i.toNat := by
  unfold jsSliceStart
  rw [if_neg (by omega)]
  have h1 : min ((len : Int)) i = i := by omega
  have h2 : max 0 i = i := by omega
  rw [h1, h2]

theorem getD_drop (l : List ReflectionLoop) (n m : Nat) (d : ReflectionLoop) :
    (l.drop n).getD m d = l.getD (n + m) d := by
  simp [List.getD_eq_getElem?_getD, List.getElem?_drop]

theorem getD_set_eq (l : List ReflectionLoop) (i : Nat) (x d : ReflectionLoop)
    (h : i < l.length) : (l.set i x).getD i d = x := by
  simp [List.getD_eq_getElem?_getD, List.getElem?_set, h]

theorem getD_set_ne (l : List ReflectionLoop) (i j : Nat) (x d : ReflectionLoop)
    (h : i ≠ j) : (l.set i x).getD j d = l.getD j d := by
  simp [List.getD_eq_getElem?_getD, List.getElem?_set, h]

theorem getD_concat_last (A : List ReflectionLoop) (x d : ReflectionLoop) :
    (A ++ [x]).getD A.length d = x := by
  simp [List.getD_eq_getElem?_getD]

theorem getD_mem_of_lt (l : List ReflectionLoop) (d : ReflectionLoop) (n : Nat)
    (h : n < l.length) : l.getD n d ∈ l := by
  have h1 : l[n]? = some l[n] := List.getElem?_eq_getElem h
  have h2 : l.getD n d = l[n] := by simp [List.getD_eq_getElem?_getD, h1]
  rw [h2]
  exact List.getElem_mem ..

/-- C1: when `finalizeVerse` runs on an eligible segment (present reference,
unfinalized, `verseNeedsFinalization` true, at least one grade required per
round, and `comment_mod_loop_count` within the round range), it scans the
rounds from index `comment_mod_loop_count` onward, picks a round holding a
maximal memoized average, copies that round's `graded_verse` and (when the
comment key is configured) `graded_verse_comment` into the official
translation fields, backfills the last round's `graded_verse` and
`graded_verse_comment` from the current translation when it was never
recorded, and sets `reflection_is_finalized` with
`reflection_finalized_grade` equal to the winning round's average. -/
theorem C1_finalizeVerse_effect (v : Verse) (c : Config) (r : String)
    (ls : List ReflectionLoop)
    (href : v.reference = some r)
    (hls : v.reflection_loops = some ls)
    (hnf : v.reflection_is_finalized = false)
    (hneed : verseNeedsFinalization v c = some true)
    (hg : 1 ≤ c.grades_per_reflection_loop)
    (hidx0 : 0 ≤ v.comment_mod_loop_count.getD 0)
    (hidxlt : v.comment_mod_loop_count.getD 0 < (ls.length : Int)) :
    ∃ (v' : Verse) (ls2 : List ReflectionLoop) (k : Nat) (g : Rat),
      finalizeVerse v c = some v' ∧
      v'.reflection_loops = some ls2 ∧
      ls2.length = ls.length ∧
      v'.reflection_is_finalized = true ∧
      v'.reflection_finalized_grade = some g ∧
      (v.comment_mod_loop_count.getD 0).toNat ≤ k ∧ k < ls2.length ∧
      (ls2.getD k default).average_grade = some g ∧
      (∀ m2, (v.comment_mod_loop_count.getD 0).toNat ≤ m2 → m2 < ls2.length →
        ∀ a, (ls2.getD m2 default).average_grade = some a → a ≤ g) ∧
      v'.translation = (ls2.getD k default).graded_verse ∧
      (c.translation_comment_key = true →
        v'.translation_comment = (ls2.getD k default).graded_verse_comment) ∧
      (strTruthy (ls.getLast?.getD default).graded_verse = false →
        (ls2.getLast?.getD default).graded_verse = v.translation ∧
        (c.translation_comment_key = true →
          (ls2.getLast?.getD default).graded_verse_comment = v.translation_comment)) := by
  have hne : ls ≠ [] := by
    intro h
    subst h
    simp only [List.length_nil, Nat.cast_zero] at hidxlt
    omega
  have hlslen : 1 ≤ ls.length := by
    cases ls with
    | nil => exact absurd rfl hne
    | cons a as => simp
  -- facts from verseNeedsFinalization
  have hfacts : ∃ last gs, ls.getLast? = some last ∧ last.grades = some gs ∧
      ¬((gs.length : Int) < c.grades_per_reflection_loop) := by
    have hneed2 := hneed
    unfold verseNeedsFinalization at hneed2
    rw [hls] at hneed2
    simp only [Option.getD_some] at hneed2
    split at hneed2
    · cases hneed2
    · cases hlast : ls.getLast? with
      | none => rw [hlast] at hneed2; cases hneed2
      | some last =>
        rw [hlast] at hneed2
        dsimp only at hneed2
        cases hgs : last.grades with
        | none => rw [hgs] at hneed2; cases hneed2
        | some gs =>
          rw [hgs] at hneed2
          dsimp only at hneed2
          refine ⟨last, gs, rfl, hgs, ?_⟩
          have h2 := Option.some.inj hneed2
          simpa using h2
  obtain ⟨last, gs, hlast, hgs, hfull⟩ := hfacts
  obtain ⟨a0, l2, hmemo, hl2avg, hl2gv, hl2gc, hl2gr⟩ :=
    memoized_last c ls last gs hlast hgs hfull hg
  have hv1 := computeVerseGrade_unfinalized v c r ls href hls hne hnf
  rw [hmemo] at hv1
  have hAlen : ls.dropLast.length = ls.length - 1 := List.length_dropLast ls
  have hlen1 : (ls.dropLast ++ [l2]).length = ls.length := by
    rw [List.length_append, hAlen]
    simp
    omega
  have hsNatlt : (v.comment_mod_loop_count.getD 0).toNat < ls.length := by omega
  have hsl : jsSliceStart (ls.dropLast ++ [l2]).length (v.comment_mod_loop_count.getD 0) =
      (v.comment_mod_loop_count.getD 0).toNat := by
    rw [hlen1]
    exact jsSliceStart_of_bounds ls.length _ hidx0 hidxlt
  have hslice : jsSlice (ls.dropLast ++ [l2]) (v.comment_mod_loop_count.getD 0) =
      (ls.dropLast ++ [l2]).drop (v.comment_mod_loop_count.getD 0).toNat := by
    unfold jsSlice
    rw [hsl]
  have hlast1 : (ls.dropLast ++ [l2]).getLast? = some l2 := List.getLast?_concat _
  have hgetlast : (ls.dropLast ++ [l2]).getD (ls.length - 1) default = l2 := by
    rw [show ls.length - 1 = ls.dropLast.length from by omega]
    exact getD_concat_last ..
  have hspec0 := selectBest_spec
    ((ls.dropLast ++ [l2]).drop (v.comment_mod_loop_count.getD 0).toNat) 0 none
  cases hsb : selectBest
      ((ls.dropLast ++ [l2]).drop (v.comment_mod_loop_count.getD 0).toNat) 0 none with
  | none =>
    rw [hsb] at hspec0
    exfalso
    have hdroplen :
        ((ls.dropLast ++ [l2]).drop (v.comment_mod_loop_count.getD 0).toNat).length =
          ls.length - (v.comment_mod_loop_count.getD 0).toNat := by
      rw [List.length_drop, hlen1]
    have hl2mem : l2 ∈ (ls.dropLast ++ [l2]).drop (v.comment_mod_loop_count.getD 0).toNat := by
      have hidx2 : ls.length - 1 - (v.comment_mod_loop_count.getD 0).toNat <
          ((ls.dropLast ++ [l2]).drop (v.comment_mod_loop_count.getD 0).toNat).length := by
        rw [hdroplen]
        omega
      have hgd : ((ls.dropLast ++ [l2]).drop
          (v.comment_mod_loop_count.getD 0).toNat).getD
            (ls.length - 1 - (v.comment_mod_loop_count.getD 0).toNat) default = l2 := by
        rw [getD_drop,
          show (v.comment_mod_loop_count.getD 0).toNat +
            (ls.length - 1 - (v.comment_mod_loop_count.getD 0).toNat) =
              ls.length - 1 from by omega]
        exact hgetlast
      have hmem := getD_mem_of_lt _ default _ hidx2
      rw [hgd] at hmem
      exact hmem
    have hcontra := hspec0.2 l2 hl2mem
    rw [hl2avg] at hcontra
    cases hcontra
  | some p =>
    obtain ⟨k', g⟩ := p
    rw [hsb] at hspec0
    obtain ⟨hpos0, _, hmax0⟩ := hspec0
    have hkm : k' < ((ls.dropLast ++ [l2]).drop
        (v.comment_mod_loop_count.getD 0).toNat).length ∧
        (((ls.dropLast ++ [l2]).drop
          (v.comment_mod_loop_count.getD 0).toNat).getD k' default).average_grade = some g := by
      rcases hpos0 with h | ⟨m, hm, hk, hgm⟩
      · cases h
      · have : k' = m := by omega
        subst this
        exact ⟨hm, hgm⟩
    obtain ⟨hk'lt, hk'avg⟩ := hkm
    have hdroplen :
        ((ls.dropLast ++ [l2]).drop (v.comment_mod_loop_count.getD 0).toNat).length =
          ls.length - (v.comment_mod_loop_count.getD 0).toNat := by
      rw [List.length_drop, hlen1]
    have hk'avg1 : ((ls.dropLast ++ [l2]).getD
        ((v.comment_mod_loop_count.getD 0).toNat + k') default).average_grade = some g := by
      rw [← getD_drop]
      exact hk'avg
    -- maximality over the memoized list, in absolute indices
    have hmax1 : ∀ m2, (v.comment_mod_loop_count.getD 0).toNat ≤ m2 → m2 < ls.length →
        ∀ a, ((ls.dropLast ++ [l2]).getD m2 default).average_grade = some a → a ≤ g := by
      intro m2 hm2lo hm2hi a ha
      have hrewrite : (ls.dropLast ++ [l2]).getD m2 default =
          ((ls.dropLast ++ [l2]).drop (v.comment_mod_loop_count.getD 0).toNat).getD
            (m2 - (v.comment_mod_loop_count.getD 0).toNat) default := by
        rw [getD_drop,
          show (v.comment_mod_loop_count.getD 0).toNat +
            (m2 - (v.comment_mod_loop_count.getD 0).toNat) = m2 from by omega]
      rw [hrewrite] at ha
      exact hmax0 (m2 - (v.comment_mod_loop_count.getD 0).toNat)
        (by rw [hdroplen]; omega) a ha
    by_cases hbf : strTruthy l2.graded_verse
    · -- no backfill: the last round already recorded its graded text
      have hfin : finalizeVerse v c =
          some { v with
            reflection_loops := some (ls.dropLast ++ [l2]),
            translation := ((ls.dropLast ++ [l2]).getD
              ((v.comment_mod_loop_count.getD 0).toNat + k') default).graded_verse,
            translation_comment :=
              if c.translation_comment_key then
                ((ls.dropLast ++ [l2]).getD
                  ((v.comment_mod_loop_count.getD 0).toNat + k') default).graded_verse_comment
              else v.translation_comment,
            reflection_is_finalized := true,
            reflection_finalized_grade := some g } := by
        unfold finalizeVerse
        rw [hls]
        dsimp only
        simp only [show verseIsFinalized v = false from hnf, Bool.false_eq_true, if_false]
        rw [hneed]
        dsimp only
        rw [hv1]
        dsimp only
        simp only [Option.getD_some]
        rw [hslice, hsb]
        dsimp only
        rw [hlast1]
        dsimp only
        rw [if_pos hbf, hsl]
      refine ⟨_, ls.dropLast ++ [l2], (v.comment_mod_loop_count.getD 0).toNat + k', g,
        hfin, rfl, hlen1, rfl, rfl, by omega, by rw [hlen1]; rw [hdroplen] at hk'lt; omega,
        hk'avg1, by rw [hlen1]; exact hmax1, rfl, ?_, ?_⟩
      · intro hkey
        show (if c.translation_comment_key then _ else _) = _
        rw [if_pos hkey]
      · intro hfalse
        exfalso
        rw [hlast] at hfalse
        simp only [Option.getD_some] at hfalse
        rw [hl2gv] at hbf
        rw [hfalse] at hbf
        cases hbf
    · -- backfill: the last round's graded text is written from the
      -- current translation before the copy
      have hbf2 : strTruthy l2.graded_verse = false := by
        exact Bool.not_eq_true _ ▸ (by simpa using hbf)
      have hsetlen : ((ls.dropLast ++ [l2]).set ((ls.dropLast ++ [l2]).length - 1)
          { l2 with
            graded_verse := v.translation,
            graded_verse_comment :=
              if c.translation_comment_key then v.translation_comment
              else l2.graded_verse_comment }).length = ls.length := by
        rw [List.length_set, hlen1]
      have havg_transfer : ∀ m2,
          (((ls.dropLast ++ [l2]).set ((ls.dropLast ++ [l2]).length - 1)
            { l2 with
              graded_verse := v.translation,
              graded_verse_comment :=
                if c.translation_comment_key then v.translation_comment
                else l2.graded_verse_comment }).getD m2 default).average_grade =
          ((ls.dropLast ++ [l2]).getD m2 default).average_grade := by
        intro m2
        by_cases hm2 : (ls.dropLast ++ [l2]).length - 1 = m2
        · rw [← hm2, getD_set_eq _ _ _ _ (by omega),
            show (ls.dropLast ++ [l2]).length - 1 = ls.length - 1 from by rw [hlen1],
            hgetlast]
        · rw [getD_set_ne _ _ _ _ _ hm2]
      have hfin : finalizeVerse v c =
          some { v with
            reflection_loops := some ((ls.dropLast ++ [l2]).set
              ((ls.dropLast ++ [l2]).length - 1)
              { l2 with
                graded_verse := v.translation,
                graded_verse_comment :=
                  if c.translation_comment_key then v.translation_comment
                  else l2.graded_verse_comment }),
            translation := (((ls.dropLast ++ [l2]).set ((ls.dropLast ++ [l2]).length - 1)
              { l2 with
                graded_verse := v.translation,
                graded_verse_comment :=
                  if c.translation_comment_key then v.translation_comment
                  else l2.graded_verse_comment }).getD
              ((v.comment_mod_loop_count.getD 0).toNat + k') default).graded_verse,
            translation_comment :=
              if c.translation_comment_key then
                (((ls.dropLast ++ [l2]).set ((ls.dropLast ++ [l2]).length - 1)
                  { l2 with
                    graded_verse := v.translation,
                    graded_verse_comment :=
                      if c.translation_comment_key then v.translation_comment
                      else l2.graded_verse_comment }).getD
                  ((v.comment_mod_loop_count.getD 0).toNat + k') default).graded_verse_comment
              else v.translation_comment,
            reflection_is_finalized := true,
            reflection_finalized_grade := some g } := by
        unfold finalizeVerse
        rw [hls]
        dsimp only
        simp only [show verseIsFinalized v = false from hnf, Bool.false_eq_true, if_false]
        rw [hneed]
        dsimp only
        rw [hv1]
        dsimp only
        simp only [Option.getD_some]
        rw [hslice, hsb]
        dsimp only
        rw [hlast1]
        dsimp only
        rw [if_neg hbf, hsl]
      have hlast2 : ((ls.dropLast ++ [l2]).set ((ls.dropLast ++ [l2]).length - 1)
          { l2 with
            graded_verse := v.translation,
            graded_verse_comment :=
              if c.translation_comment_key then v.translation_comment
              else l2.graded_verse_comment }).getLast? =
          some { l2 with
            graded_verse := v.translation,
            graded_verse_comment :=
              if c.translation_comment_key then v.translation_comment
              else l2.graded_verse_comment } := by
        rw [List.getLast?_eq_getElem?, List.length_set, List.getElem?_set]
        have hlt : (ls.dropLast ++ [l2]).length - 1 < (ls.dropLast ++ [l2]).length := by
          omega
        simp [hlt]
      refine ⟨_, _, (v.comment_mod_loop_count.getD 0).toNat + k', g,
        hfin, rfl, hsetlen, rfl, rfl, by omega,
        by rw [hsetlen]; rw [hdroplen] at hk'lt; omega,
        by rw [havg_transfer]; exact hk'avg1,
        by
          intro m2 hm2lo hm2hi a ha
          rw [havg_transfer] at ha
          rw [hsetlen] at hm2hi
          exact hmax1 m2 hm2lo hm2hi a ha,
        rfl, ?_, ?_⟩
      · intro hkey
        show (if c.translation_comment_key then _ else _) = _
        rw [if_pos hkey]
      · intro _
        rw [hlast2]
        simp only [Option.getD_some]
        refine ⟨by trivial, ?_⟩
        intro hkey
        show (if c.translation_comment_key then _ else _) = _
        rw [if_pos hkey]

/-- A concrete finalization-ready verse: one fully graded round (grades 40
and 60), no recorded `graded_verse`. -/
def c1WitnessVerse : Verse :=
  { reference := some "GEN 1:1",
    translation := some "current",
    translation_comment := some "cmt",
    reflection_loops := some [{ grades := some [⟨40, "a"⟩, ⟨60, "b"⟩] }] }

/-- Two grades per round, one round per verse. -/
def c1WitnessConfig : Config :=
  { grades_per_reflection_loop := 2, reflection_loops_per_verse := some 1 }

/-- Witness for C1 at the concrete verse and configuration. -/
theorem C1_witness :
    ∃ (v' : Verse) (ls2 : List ReflectionLoop) (k : Nat) (g : Rat),
      finalizeVerse c1WitnessVerse c1WitnessConfig = some v' ∧
      v'.reflection_loops = some ls2 ∧
      ls2.length = ([{ grades := some [⟨40, "a"⟩, ⟨60, "b"⟩] }] : List ReflectionLoop).length ∧
      v'.reflection_is_finalized = true ∧
      v'.reflection_finalized_grade = some g ∧
      (c1WitnessVerse.comment_mod_loop_count.getD 0).toNat ≤ k ∧ k < ls2.length ∧
      (ls2.getD k default).average_grade = some g ∧
      (∀ m2, (c1WitnessVerse.comment_mod_loop_count.getD 0).toNat ≤ m2 → m2 < ls2.length →
        ∀ a, (ls2.getD m2 default).average_grade = some a → a ≤ g) ∧
      v'.translation = (ls2.getD k default).graded_verse ∧
      (c1WitnessConfig.translation_comment_key = true →
        v'.translation_comment = (ls2.getD k default).graded_verse_comment) ∧
      (strTruthy (([{ grades := some [⟨40, "a"⟩, ⟨60, "b"⟩] }] :
          List ReflectionLoop).getLast?.getD default).graded_verse = false →
        (ls2.getLast?.getD default).graded_verse = c1WitnessVerse.translation ∧
        (c1WitnessConfig.translation_comment_key = true →
          (ls2.getLast?.getD default).graded_verse_comment =
            c1WitnessVerse.translation_comment)) :=
  C1_finalizeVerse_effect c1WitnessVerse c1WitnessConfig "GEN 1:1"
    [{ grades := some [⟨40, "a"⟩, ⟨60, "b"⟩] }]
    rfl rfl rfl (by decide) (by decide) (by decide) (by decide)

end CodexReflection
